import Mathlib

/-!
Verification development for the OpenAPI renderer in
src/sphinxcontrib/openapi.py.

The document trees manipulated by the source (YAML documents loaded as
ordered dictionaries, lists and scalars) are embedded as the inductive
type Val below: ordered mappings become association lists whose key
order is insertion order, sequences become lists, scalars keep their
value.  The source mutates one document object in place; here a
mutation is a functional update of the whole tree at an explicit path
(type Step), which mirrors the in-place assignments
node[k] = _do_resolve(v) and node[i] = _do_resolve(node[i]) of
_do_resolve.  Trees are compared by value: object identity and
aliasing between distinct tree positions are outside the model.
-/

set_option autoImplicit false

/-- A YAML/JSON document node: ordered mapping, sequence, or scalar.
Mapping entries keep their source order, mirroring the ordered loader
installed at module import in the source (lines 33 to 40). -/
inductive Val where
  | str : String → Val
  | num : Int → Val
  | bool : Bool → Val
  | null : Val
  | arr : List Val → Val
  | obj : List (String × Val) → Val

/-- One step of a path into a document tree: a mapping key or a
sequence index. -/
inductive Step where
  | key : String → Step
  | idx : Nat → Step
  deriving Repr, DecidableEq

/-- First value stored under key k, as a Python dict lookup. -/
def lookupKey : List (String × Val) → String → Option Val
  | [], _ => none
  | (k0, v0) :: rest, k => if k0 = k then some v0 else lookupKey rest k

/-- Element at an index of a sequence. -/
def getIdx : List Val → Nat → Option Val
  | [], _ => none
  | v :: _, 0 => some v
  | _ :: t, i + 1 => getIdx t i

/-- Remove every entry whose key is k, as dict.pop(k) on a dict with
unique keys. -/
def removeKey : List (String × Val) → String → List (String × Val)
  | [], _ => []
  | (k0, v0) :: rest, k => if k0 = k then removeKey rest k else (k0, v0) :: removeKey rest k

/-- Read the subtree at a path. -/
def getPath : Val → List Step → Option Val
  | v, [] => some v
  | .obj es, .key k :: rest => (lookupKey es k).bind (fun v => getPath v rest)
  | .arr xs, .idx i :: rest => (getIdx xs i).bind (fun v => getPath v rest)
  | _, _ :: _ => none

mutual

/-- Replace the subtree at a path (no-op where the path does not
exist), modelling an in-place assignment into the tree. -/
def setPath : Val → List Step → Val → Val
  | _, [], w => w
  | .obj es, .key k :: rest, w => .obj (setEntry es k rest w)
  | .arr xs, .idx i :: rest, w => .arr (setItem xs i rest w)
  | v, _ :: _, _ => v

/-- Helper of setPath: descend into the first entry with the given key. -/
def setEntry : List (String × Val) → String → List Step → Val → List (String × Val)
  | [], _, _, _ => []
  | (k0, v0) :: rest0, k, rest, w =>
    if k0 = k then (k0, setPath v0 rest w) :: rest0
    else (k0, v0) :: setEntry rest0 k rest w

/-- Helper of setPath: descend into the element at the given index. -/
def setItem : List Val → Nat → List Step → Val → List Val
  | [], _, _, _ => []
  | v0 :: t, 0, rest, w => setPath v0 rest w :: t
  | v0 :: t, i + 1, rest, w => v0 :: setItem t i rest w

end

/-- Replace the value of the first entry with key k, keeping its
position, as a Python dict assignment d[k] = w on an existing key. -/
def updateKey (es : List (String × Val)) (k : String) (w : Val) : List (String × Val) :=
  setEntry es k [] w

/-- Key presence test, as the expression (k in node) of the source. -/
def hasKey (es : List (String × Val)) (k : String) : Bool :=
  es.any (fun p => p.1 == k)

/-- A Reference Node: a mapping whose keys include the string dollar-ref,
as tested by line 59 of the source. -/
def isRefNode : Val → Bool
  | .obj es => hasKey es "$ref"
  | _ => false

/-!
JSON pointer resolution.  The source delegates reference lookup to the
external jsonschema library (RefResolver, line 56); that collaborator
is not part of this repository.  Modelled from the spec: fragment-only
pointers into the same document, split on the slash character, with
the per-segment unescaping rules tilde-one to slash and tilde-zero to
tilde applied before each lookup; sequence segments are looked up as
decimal indices.  External and relative URIs require network or file
retrieval and are modelled as resolution failure; the base URI
parameter does not affect fragment-only pointers, which always resolve
against the referrer document itself.
-/

/-- Replace each non-overlapping occurrence of the two-character
pattern a b by the single character r, scanning left to right, as the
Python expression part.replace(pattern, replacement) for a
two-character pattern. -/
def replace2 (a b r : Char) : List Char → List Char
  | [] => []
  | [c] => [c]
  | c1 :: c2 :: rest =>
    if c1 = a ∧ c2 = b then r :: replace2 a b r rest
    else c1 :: replace2 a b r (c2 :: rest)

/-- Unescape one pointer segment: tilde-one becomes slash, then
tilde-zero becomes tilde, in that order. -/
def unescapeSegment (s : String) : String :=
  ⟨replace2 '~' '0' '~' (replace2 '~' '1' '/' s.data)⟩

/-- Split a character list on a separator character; mirrors the
Python str.split method with a one-character separator. -/
def splitChar (sep : Char) : List Char → List (List Char)
  | [] => [[]]
  | c :: rest =>
    let r := splitChar sep rest
    if c = sep then [] :: r
    else
      match r with
      | h :: t => (c :: h) :: t
      | [] => [[c]]

/-- Decimal digits to a natural number; none when a character is not
a digit. -/
def digitsToNat : Nat → List Char → Option Nat
  | acc, [] => some acc
  | acc, c :: rest =>
    if '0' ≤ c ∧ c ≤ '9' then digitsToNat (acc * 10 + (c.toNat - '0'.toNat)) rest
    else none

/-- A pointer segment as a sequence index: all-digit segments only. -/
def parseIndex : List Char → Option Nat
  | [] => none
  | cs => digitsToNat 0 cs

/-- Split a reference URI into its pointer segments.  Only
fragment-only URIs (leading hash) are in-document; the fragment is
stripped of leading slashes and split on slash, the empty fragment
designating the document root. -/
def parseFragment (uri : String) : Option (List String)
  := match uri.data with
  | '#' :: rest =>
    let frag := rest.dropWhile (fun c => c = '/')
    if frag = [] then some []
    else some ((splitChar '/' frag).map (fun cs => (⟨cs⟩ : String)))
  | _ => none

/-- Walk unescaped pointer segments down a document, as the fragment
resolution of the external resolver: mapping segments are key lookups,
sequence segments are decimal indices. -/
def resolveFragment (v : Val) : List String → Option Val
  | [] => some v
  | seg :: rest =>
    match v with
    | .obj es => (lookupKey es (unescapeSegment seg)).bind
        (fun w => resolveFragment w rest)
    | .arr xs => (parseIndex (unescapeSegment seg).data).bind
        (fun i => (getIdx xs i).bind (fun w => resolveFragment w rest))
    | _ => none

/-- Resolve a reference URI against the current document.  The base
URI anchors external references, which involve retrieval and are not
modelled; for fragment-only references it is irrelevant, since the
resolver finds the referrer document in its store under its own base. -/
def resolveUri (doc : Val) (uri : String) : Option Val :=
  (parseFragment uri).bind (resolveFragment doc)

/-!
The reference resolver, embedding _do_resolve (source lines 58 to 68)
and _resolve_refs (lines 43 to 70).  The source walks the document and
mutates it in place; here the walk carries the whole current document
together with the path of the node being visited, and every in-place
assignment becomes a setPath on the current document.  The node
argument is the value found at that path when the walk reaches it,
exactly as the Python locals node and v hold the objects being
visited.  A mapping containing the dollar-ref key is replaced by the
resolved target of its reference, looked up in the current document,
and the walk does not descend into the substituted value; any other
mapping or sequence has each child visited in order; scalars are left
alone.  The result is none where the source would raise: an
unresolvable reference, a non-string reference value.
-/

mutual

/-- _do_resolve: visit the node n sitting at the given path of doc and
return the document after this visit. -/
def do_resolve (doc : Val) (path : List Step) (n : Val) : Option Val :=
  match n with
  | .obj es =>
    match lookupKey es "$ref" with
    | some (.str u) => (resolveUri doc u).map (setPath doc path)
    | some _ => none
    | none => do_resolveEntries doc path es
  | .arr xs => do_resolveItems doc path 0 xs
  | _ => some doc

/-- The loop over node.items() of _do_resolve, line 63. -/
def do_resolveEntries (doc : Val) (path : List Step) : List (String × Val) → Option Val
  | [] => some doc
  | (k, v) :: rest =>
    (do_resolve doc (path ++ [.key k]) v).bind
      (fun doc1 => do_resolveEntries doc1 path rest)

/-- The loop over range(len(node)) of _do_resolve, line 66. -/
def do_resolveItems (doc : Val) (path : List Step) (i : Nat) : List Val → Option Val
  | [] => some doc
  | v :: rest =>
    (do_resolve doc (path ++ [.idx i]) v).bind
      (fun doc1 => do_resolveItems doc1 path (i + 1) rest)

end

/-- _resolve_refs, lines 43 to 70: resolve every reference of spec,
starting the walk at the document root, and return the resolved root.
The uri argument anchors relative references in the source; in the
model it is kept for the signature only (see resolveUri). -/
def resolve_refs (_uri : String) (spec : Val) : Option Val :=
  do_resolve spec [] spec

/-!
The spec normalizer, embedding the loop of _normalize_spec (source
lines 269 to 273), and the pipeline entry point openapi2httpdomain
(lines 276 to 299).  Failure (none) models an exception escaping the
source: a missing paths key, an endpoint or operation that is not a
mapping, a parameters value that is not a sequence.
-/

/-- Lines 271 to 273 for one method entry: method.setdefault puts an
empty parameters sequence when the key is absent, appending the new
key at the end of the mapping, and extend appends the endpoint-level
parameters after the operation-specific ones.  Extending from a value
that is not a sequence is not modelled and fails. -/
def hoistMethod (params : Val) (m : Val) : Option Val :=
  match m, params with
  | .obj es, .arr ps =>
    match lookupKey es "parameters" with
    | some (.arr ps0) => some (.obj (updateKey es "parameters" (.arr (ps0 ++ ps))))
    | some _ => none
    | none => some (.obj (es ++ [("parameters", .arr ps)]))
  | _, _ => none

/-- The loop over endpoint.values() of line 271, keeping every key. -/
def hoistMethods (params : Val) : List (String × Val) → Option (List (String × Val))
  | [] => some []
  | (k, m) :: rest =>
    (hoistMethod params m).bind
      (fun m1 => (hoistMethods params rest).map (fun r => (k, m1) :: r))

/-- Lines 270 to 273 for one endpoint: pop the endpoint-level
parameters (default the empty sequence) and push them into every
remaining entry. -/
def hoistEndpoint (ep : Val) : Option Val :=
  match ep with
  | .obj es =>
    let params := (lookupKey es "parameters").getD (.arr [])
    (hoistMethods params (removeKey es "parameters")).map (fun es1 => .obj es1)
  | _ => none

/-- The loop over spec['paths'].values() of line 269. -/
def hoistEndpoints : List (String × Val) → Option (List (String × Val))
  | [] => some []
  | (k, ep) :: rest =>
    (hoistEndpoint ep).bind
      (fun ep1 => (hoistEndpoints rest).map (fun r => (k, ep1) :: r))

/-- The normalization loop of _normalize_spec on a resolved document:
every endpoint under paths has its endpoint-level parameters pushed
into its operations. -/
def normalize_tree (spec : Val) : Option Val :=
  match spec with
  | .obj es =>
    match lookupKey es "paths" with
    | some (.obj pes) =>
      (hoistEndpoints pes).map (fun pes1 => .obj (updateKey es "paths" (.obj pes1)))
    | _ => none
  | _ => none

/-- _normalize_spec, lines 258 to 273: resolve references, rebinding
the local spec to the returned root (line 263), then hoist parameters.
The source returns None; the value returned here is the content of
that rebound local document after the loop, which is what the
in-place mutations produced. -/
def normalize_spec (uri : String) (spec : Val) : Option Val :=
  (resolve_refs uri spec).bind normalize_tree

/-- Errors escaping openapi2httpdomain: a resolution or normalization
failure from _normalize_spec, a missing or malformed paths mapping
(KeyError at line 288 or 295), and the ValueError of lines 289 to 293
listing the requested endpoints that the spec does not define. -/
inductive PipeErr where
  | resolutionError
  | keyError
  | unknownPaths (missing : List String)

/-- The loop of lines 295 to 297: for each selected endpoint, in
order, emit one (endpoint, method, properties) triple per operation,
in mapping order; these are the arguments of the _httpresource
generators collected into the returned chain. -/
def emitOps (pes : List (String × Val)) : List String → Option (List (String × String × Val))
  | [] => some []
  | ep :: rest =>
    match lookupKey pes ep with
    | some (.obj ms) =>
      (emitOps pes rest).map (fun r => ms.map (fun m => (ep, m.1, m.2)) ++ r)
    | _ => none

/-- openapi2httpdomain, lines 276 to 299.  The call to _normalize_spec
at line 283 discards the return value: the caller keeps its own spec
binding, so the walk below uses the caller's object, which carries the
in-place mutations exactly when the resolver returned the root itself,
that is when the root is not a Reference Node; for a Reference Node
root the original, unresolved root remains.  The second component is
the content of the caller's spec object after the call: the original
tree for a Reference Node root, the normalized tree otherwise, and
none when normalization failed (a partially mutated tree the model
does not track). -/
def openapi2httpdomain (uri : String) (reqPaths : Option (List String)) (spec : Val) :
    Except PipeErr (List (String × String × Val)) × Option Val :=
  match normalize_spec uri spec with
  | none => (.error .resolutionError, if isRefNode spec then some spec else none)
  | some norm =>
    let cv := if isRefNode spec then spec else norm
    let res : Except PipeErr (List (String × String × Val)) :=
      match cv with
      | .obj ces =>
        match lookupKey ces "paths" with
        | some (.obj pes) =>
          match reqPaths with
          | some ps =>
            let missing := ps.filter (fun p => (lookupKey pes p).isNone)
            if missing.isEmpty then
              match emitOps pes ps with
              | some out => .ok out
              | none => .error .keyError
            else .error (.unknownPaths missing)
          | none =>
            match emitOps pes (pes.map (fun p => p.1)) with
            | some out => .ok out
            | none => .error .keyError
        | _ => .error .keyError
      | _ => .error .keyError
    (res, some cv)

/-!
Predicates used to state the claims: absence of Reference Nodes,
subtree enumeration, key uniqueness, bounded reference chains
(acyclicity of the reference graph), clean pointers (paths through
non-reference nodes to reference-free targets), and the normalized
shape of a document.
-/

mutual

/-- No node of the tree is a Reference Node. -/
def refFree : Val → Bool
  | .obj es => !hasKey es "$ref" && refFreeEntries es
  | .arr xs => refFreeList xs
  | _ => true

/-- refFree on every mapping value. -/
def refFreeEntries : List (String × Val) → Bool
  | [] => true
  | (_, v) :: rest => refFree v && refFreeEntries rest

/-- refFree on every sequence element. -/
def refFreeList : List Val → Bool
  | [] => true
  | v :: rest => refFree v && refFreeList rest

end

mutual

/-- Every node of the tree, the tree itself included. -/
def subtrees : Val → List Val
  | .obj es => .obj es :: subtreesEntries es
  | .arr xs => .arr xs :: subtreesList xs
  | v => [v]

/-- Subtrees of every mapping value. -/
def subtreesEntries : List (String × Val) → List Val
  | [] => []
  | (_, v) :: rest => subtrees v ++ subtreesEntries rest

/-- Subtrees of every sequence element. -/
def subtreesList : List Val → List Val
  | [] => []
  | v :: rest => subtrees v ++ subtreesList rest

end

/-- The keys of the entry list are pairwise distinct. -/
def nodupKeys : List (String × Val) → Bool
  | [] => true
  | (k, _) :: rest => !hasKey rest k && nodupKeys rest

mutual

/-- Every mapping of the tree has pairwise distinct keys, as a Python
dictionary does. -/
def wfKeys : Val → Bool
  | .obj es => nodupKeys es && wfKeysEntries es
  | .arr xs => wfKeysList xs
  | _ => true

/-- wfKeys on every mapping value. -/
def wfKeysEntries : List (String × Val) → Bool
  | [] => true
  | (_, v) :: rest => wfKeys v && wfKeysEntries rest

/-- wfKeys on every sequence element. -/
def wfKeysList : List Val → Bool
  | [] => true
  | v :: rest => wfKeys v && wfKeysList rest

end

/-- The immediate reference target of a node: for a Reference Node
with a string reference, its target in the document. -/
def refTarget (doc v : Val) : Option Val :=
  match v with
  | .obj es =>
    match lookupKey es "$ref" with
    | some (.str u) => resolveUri doc u
    | _ => none
  | _ => none

/-- The chain of immediate reference targets starting at v stops
within n steps. -/
def refChainStops (doc : Val) : Nat → Val → Bool
  | 0, v => (refTarget doc v).isNone
  | n + 1, v =>
    match refTarget doc v with
    | some t => refChainStops doc n t
    | none => true

/-- Acyclicity witness for the reference graph of a document: from
every node of the tree, following immediate reference targets stops
within n steps. -/
def acyclicWithin (doc : Val) (n : Nat) : Bool :=
  (subtrees doc).all (refChainStops doc n)

/-- Walk pointer segments requiring every node stepped through to not
be a Reference Node; the value reached is returned. -/
def walkClean : Val → List String → Option Val
  | v, [] => some v
  | v, seg :: rest =>
    if isRefNode v then none
    else
      match v with
      | .obj es => (lookupKey es (unescapeSegment seg)).bind (fun w => walkClean w rest)
      | .arr xs => (parseIndex (unescapeSegment seg).data).bind
          (fun i => (getIdx xs i).bind (fun w => walkClean w rest))
      | _ => none

/-- A clean in-document pointer: its path crosses no Reference Node
and its target contains no Reference Node. -/
def pointerOk (doc : Val) (u : String) : Bool :=
  match parseFragment u with
  | some segs =>
    match walkClean doc segs with
    | some t => refFree t
    | none => false
  | none => false

/-- A node is reference-benign: either not a Reference Node, or a
Reference Node whose reference is a string with a clean pointer. -/
def refOk (doc v : Val) : Bool :=
  if isRefNode v then
    match v with
    | .obj es =>
      match lookupKey es "$ref" with
      | some (.str u) => pointerOk doc u
      | _ => false
    | _ => false
  else true

/-- Every reference of the document is an in-document pointer whose
path crosses no Reference Node and whose target contains no Reference
Node (depth-one references). -/
def refsShallow (doc : Val) : Bool :=
  (subtrees doc).all (refOk doc)

/-- An operation in normalized shape: a mapping whose parameters key
holds a sequence. -/
def operationNormalized (m : Val) : Bool :=
  match m with
  | .obj es =>
    match lookupKey es "parameters" with
    | some (.arr _) => true
    | _ => false
  | _ => false

/-- An endpoint in normalized shape: a mapping with no top-level
parameters key, every entry an operation in normalized shape. -/
def endpointNormalized (ep : Val) : Bool :=
  match ep with
  | .obj es => (lookupKey es "parameters").isNone && es.all (fun p => operationNormalized p.2)
  | _ => false

/-- A document in normalized shape: its paths mapping exists and every
endpoint is in normalized shape. -/
def treeNormalized (spec : Val) : Bool :=
  match spec with
  | .obj es =>
    match lookupKey es "paths" with
    | some (.obj pes) => pes.all (fun p => endpointNormalized p.2)
    | _ => false
  | _ => false

/-!
Accessors and concrete documents used in the statements below.
-/

/-- The endpoint entries of the paths mapping of a document. -/
def pathsEndpoints (spec : Val) : Option (List (String × Val)) :=
  match spec with
  | .obj es =>
    match lookupKey es "paths" with
    | some (.obj pes) => some pes
    | _ => none
  | _ => none

/-- The operations of the endpoints in mapping order: one
(endpoint, method, properties) triple per operation, endpoints in the
order of the paths mapping, methods in the order of each endpoint
mapping. -/
def flattenOps : List (String × Val) → List (String × String × Val)
  | [] => []
  | (ep, .obj ms) :: rest => ms.map (fun m => (ep, m.1, m.2)) ++ flattenOps rest
  | _ :: rest => flattenOps rest

/-- A document with an acyclic chain of references: a points at b,
b points at c, c is a scalar. -/
def chainDoc : Val :=
  .obj [("a", .obj [("$ref", .str "#/b")]),
        ("b", .obj [("$ref", .str "#/c")]),
        ("c", .num 42)]

/-- The result of resolving chainDoc: position a still holds a
Reference Node, because the visit of a substituted the then-current
raw value of b and the later rebinding of b did not reach it. -/
def chainDocResolved : Val :=
  .obj [("a", .obj [("$ref", .str "#/c")]),
        ("b", .num 42),
        ("c", .num 42)]

/-- A document whose references are depth-one: every target is free of
Reference Nodes. -/
def shallowDoc : Val :=
  .obj [("a", .obj [("$ref", .str "#/b")]), ("b", .num 5)]

/-- A document with one reference and endpoint-level parameters, and
no endpoint named /missing. -/
def c9spec : Val :=
  .obj [("paths", .obj [("/pets",
          .obj [("parameters", .arr [.obj [("name", .str "p1")]]),
                ("get", .obj [])])]),
        ("d", .num 1),
        ("x", .obj [("$ref", .str "#/d")])]

/-- c9spec after reference resolution and parameter hoisting. -/
def c9norm : Val :=
  .obj [("paths", .obj [("/pets",
          .obj [("get", .obj [("parameters", .arr [.obj [("name", .str "p1")]])])])]),
        ("d", .num 1),
        ("x", .num 1)]

/-- A document whose root is a Reference Node and has no paths key;
its target defines a paths mapping. -/
def c10spec : Val :=
  .obj [("$ref", .str "#/d"), ("d", .obj [("paths", .obj [])])]

/-- A spec whose only endpoint is /pets. -/
def petsSpec : Val :=
  .obj [("paths", .obj [("/pets", .obj [("get", .obj [])])])]

/-- A spec whose paths keys appear as /b then /a in source order. -/
def baSpec : Val :=
  .obj [("paths", .obj [("/b", .obj [("get", .obj []), ("put", .obj [])]),
                        ("/a", .obj [("get", .obj [])])])]

/-- The endpoint /items with endpoint-level parameters P1 and an
operation with parameters P2. -/
def itemsSpec : Val :=
  .obj [("paths", .obj [("/items",
          .obj [("parameters", .arr [.str "P1"]),
                ("get", .obj [("parameters", .arr [.str "P2"])])])])]

/-- itemsSpec in normalized shape. -/
def itemsNormalized : Val :=
  .obj [("paths", .obj [("/items",
          .obj [("get", .obj [("parameters", .arr [.str "P2", .str "P1"])])])])]

/-!
Machinery for the completeness statement of the resolver.  Ev relates
the initial document to any document the walk can have produced so
far: some positions whose initial value was a Reference Node have
been replaced by reference-free values.  Res relates a node to the
result of one completed visit of it: every maximal Reference-Node
position substituted by a reference-free value, everything else kept
in shape.
-/

/-- A scalar node: neither mapping nor sequence. -/
def isScalar : Val → Bool
  | .obj _ => false
  | .arr _ => false
  | _ => true

mutual

inductive Ev : Val → Val → Prop where
  | refl : ∀ v, Ev v v
  | subst : ∀ v w, isRefNode v = true → refFree w = true → Ev v w
  | obj : ∀ es es', EvEntries es es' → Ev (.obj es) (.obj es')
  | arr : ∀ xs xs', EvList xs xs' → Ev (.arr xs) (.arr xs')

inductive EvEntries : List (String × Val) → List (String × Val) → Prop where
  | nil : EvEntries [] []
  | cons : ∀ k v v' es es', Ev v v' → EvEntries es es' →
      EvEntries ((k, v) :: es) ((k, v') :: es')

inductive EvList : List Val → List Val → Prop where
  | nil : EvList [] []
  | cons : ∀ v v' xs xs', Ev v v' → EvList xs xs' → EvList (v :: xs) (v' :: xs')

end

mutual

inductive Res : Val → Val → Prop where
  | subst : ∀ v w, isRefNode v = true → refFree w = true → Res v w
  | obj : ∀ es es', hasKey es "$ref" = false → ResEntries es es' → Res (.obj es) (.obj es')
  | arr : ∀ xs xs', ResList xs xs' → Res (.arr xs) (.arr xs')
  | scalar : ∀ v, isScalar v = true → Res v v

inductive ResEntries : List (String × Val) → List (String × Val) → Prop where
  | nil : ResEntries [] []
  | cons : ∀ k v v' es es', Res v v' → ResEntries es es' →
      ResEntries ((k, v) :: es) ((k, v') :: es')

inductive ResList : List Val → List Val → Prop where
  | nil : ResList [] []
  | cons : ∀ v v' xs xs', Res v v' → ResList xs xs' → ResList (v :: xs) (v' :: xs')

end

/-! Evaluation checks of the definitions on concrete documents. -/

example : lookupKey [("a", .num 1), ("b", .num 2)] "b" = some (.num 2) := rfl

example : getPath (.obj [("a", .arr [.num 5, .num 6])]) [.key "a", .idx 1] = some (.num 6) := rfl

example : setPath (.obj [("a", .arr [.num 5, .num 6])]) [.key "a", .idx 1] (.num 9)
    = .obj [("a", .arr [.num 5, .num 9])] := rfl

example : isRefNode (.obj [("$ref", .str "#/a"), ("x", .num 1)]) = true := rfl

example : unescapeSegment "~1pets~1{id}" = "/pets/{id}" := rfl

example : unescapeSegment "~01" = "~1" := rfl

example : parseFragment "#/paths/~1pets~1{id}/get" = some ["paths", "~1pets~1{id}", "get"] := rfl

example : parseFragment "#" = some [] := rfl

example : resolveUri (.obj [("a", .arr [.num 5, .num 6])]) "#/a/1" = some (.num 6) := rfl

example : resolve_refs "" (.obj [("a", .obj [("$ref", .str "#/b")]), ("b", .num 7)])
    = some (.obj [("a", .num 7), ("b", .num 7)]) := rfl

-- a reference to a reference: the first visit substitutes the raw
-- target, the later rebinding of key b does not reach position a
example : resolve_refs ""
      (.obj [("a", .obj [("$ref", .str "#/b")]),
             ("b", .obj [("$ref", .str "#/c")]),
             ("c", .num 42)])
    = some (.obj [("a", .obj [("$ref", .str "#/c")]),
                  ("b", .num 42),
                  ("c", .num 42)]) := rfl

-- a later reference to an already-substituted position sees the
-- substituted value, because lookups consult the current document
example : resolve_refs ""
      (.obj [("b", .obj [("$ref", .str "#/c")]),
             ("c", .num 42),
             ("d", .obj [("$ref", .str "#/b")])])
    = some (.obj [("b", .num 42), ("c", .num 42), ("d", .num 42)]) := rfl

example : normalize_tree
      (.obj [("paths", .obj [("/items",
        .obj [("parameters", .arr [.str "P1"]),
              ("get", .obj [("parameters", .arr [.str "P2"])])])])])
    = some (.obj [("paths", .obj [("/items",
        .obj [("get", .obj [("parameters", .arr [.str "P2", .str "P1"])])])])]) := rfl

example : (openapi2httpdomain "" (some ["/missing"])
      (.obj [("paths", .obj [("/pets", .obj [("get", .obj [])])])])).1
    = .error (.unknownPaths ["/missing"]) := rfl

example : (openapi2httpdomain "" none
      (.obj [("paths", .obj [("/b", .obj [("get", .obj []), ("put", .obj [])]),
                             ("/a", .obj [("get", .obj [])])])])).1
    = .ok [("/b", "get", .obj [("parameters", .arr [])]),
           ("/b", "put", .obj [("parameters", .arr [])]),
           ("/a", "get", .obj [("parameters", .arr [])])] := rfl

example : refFree (.obj [("a", .obj [("$ref", .str "#/c")]), ("b", .num 42)]) = false := rfl

example : acyclicWithin
    (.obj [("a", .obj [("$ref", .str "#/b")]),
           ("b", .obj [("$ref", .str "#/c")]),
           ("c", .num 42)]) 5 = true := rfl

example : refsShallow (.obj [("a", .obj [("$ref", .str "#/b")]), ("b", .num 7)]) = true := rfl

example : refsShallow
    (.obj [("a", .obj [("$ref", .str "#/b")]),
           ("b", .obj [("$ref", .str "#/c")]),
           ("c", .num 42)]) = false := rfl

/-! Basic lemmas about paths, lookups and updates. -/

theorem lookupKey_setEntry_self : ∀ (es : List (String × Val)) (k : String) (r : List Step)
    (w v : Val), lookupKey es k = some v →
    lookupKey (setEntry es k r w) k = some (setPath v r w) := by
  intro es k r w
  induction es with
  | nil => intro v h; simp [lookupKey] at h
  | cons p rest ih =>
    intro v h
    obtain ⟨k0, v0⟩ := p
    by_cases hk : k0 = k
    · subst hk
      simp [lookupKey] at h
      simp [setEntry, lookupKey, h]
    · simp [lookupKey, hk] at h
      simp [setEntry, lookupKey, hk, ih v h]

theorem lookupKey_setEntry_other : ∀ (es : List (String × Val)) (k k1 : String) (r : List Step)
    (w : Val), k1 ≠ k → lookupKey (setEntry es k r w) k1 = lookupKey es k1 := by
  intro es k k1 r w hne
  induction es with
  | nil => simp [setEntry]
  | cons p rest ih =>
    obtain ⟨k0, v0⟩ := p
    by_cases hk : k0 = k
    · subst hk
      have : k0 ≠ k1 := fun h => hne h.symm
      simp [setEntry, lookupKey, this]
    · by_cases hk1 : k0 = k1
      · subst hk1; simp [setEntry, lookupKey, hk]
      · simp [setEntry, lookupKey, hk, hk1, ih]

theorem getIdx_setItem_self : ∀ (xs : List Val) (i : Nat) (r : List Step) (w v : Val),
    getIdx xs i = some v → getIdx (setItem xs i r w) i = some (setPath v r w) := by
  intro xs
  induction xs with
  | nil => intro i r w v h; simp [getIdx] at h
  | cons x t ih =>
    intro i r w v h
    cases i with
    | zero => simp [getIdx] at h; simp [setItem, getIdx, h]
    | succ j => simp [getIdx] at h; simpa [setItem, getIdx] using ih j r w v h

theorem getPath_setPath_self : ∀ (p : List Step) (d x w : Val),
    getPath d p = some x → getPath (setPath d p w) p = some w := by
  intro p
  induction p with
  | nil => intro d x w _; simp [setPath, getPath]
  | cons s rest ih =>
    intro d x w h
    cases s with
    | key k =>
      cases d with
      | obj es =>
        simp only [getPath, Option.bind_eq_some] at h
        obtain ⟨v, hv, hrest⟩ := h
        simp only [setPath, getPath]
        rw [lookupKey_setEntry_self es k rest w v hv]
        simpa using ih v x w hrest
      | str s => simp [getPath] at h
      | num n => simp [getPath] at h
      | bool b => simp [getPath] at h
      | null => simp [getPath] at h
      | arr xs => simp [getPath] at h
    | idx i =>
      cases d with
      | arr xs =>
        simp only [getPath, Option.bind_eq_some] at h
        obtain ⟨v, hv, hrest⟩ := h
        simp only [setPath, getPath]
        rw [getIdx_setItem_self xs i rest w v hv]
        simpa using ih v x w hrest
      | str s => simp [getPath] at h
      | num n => simp [getPath] at h
      | bool b => simp [getPath] at h
      | null => simp [getPath] at h
      | obj es => simp [getPath] at h

theorem getPath_append : ∀ (p q : List Step) (d : Val),
    getPath d (p ++ q) = (getPath d p).bind (fun v => getPath v q) := by
  intro p
  induction p with
  | nil => intro q d; simp [getPath]
  | cons s rest ih =>
    intro q d
    cases s with
    | key k =>
      cases d with
      | obj es =>
        simp only [List.cons_append, getPath]
        cases lookupKey es k with
        | none => simp
        | some v => simp [ih]
      | str s => simp [getPath]
      | num n => simp [getPath]
      | bool b => simp [getPath]
      | null => simp [getPath]
      | arr xs => simp [getPath]
    | idx i =>
      cases d with
      | arr xs =>
        simp only [List.cons_append, getPath]
        cases getIdx xs i with
        | none => simp
        | some v => simp [ih]
      | str s => simp [getPath]
      | num n => simp [getPath]
      | bool b => simp [getPath]
      | null => simp [getPath]
      | obj es => simp [getPath]

theorem setEntry_congr : ∀ (es : List (String × Val)) (k : String) (r1 r2 : List Step)
    (w1 w2 v : Val), lookupKey es k = some v → setPath v r1 w1 = setPath v r2 w2 →
    setEntry es k r1 w1 = setEntry es k r2 w2 := by
  intro es k r1 r2 w1 w2 v
  induction es with
  | nil => intro h _; simp [lookupKey] at h
  | cons p rest ih =>
    intro h heq
    obtain ⟨k0, v0⟩ := p
    by_cases hk : k0 = k
    · subst hk
      simp [lookupKey] at h
      subst h
      simp [setEntry, heq]
    · simp [lookupKey, hk] at h
      simp [setEntry, hk, ih h heq]

theorem setItem_congr : ∀ (xs : List Val) (i : Nat) (r1 r2 : List Step) (w1 w2 v : Val),
    getIdx xs i = some v → setPath v r1 w1 = setPath v r2 w2 →
    setItem xs i r1 w1 = setItem xs i r2 w2 := by
  intro xs
  induction xs with
  | nil => intro i r1 r2 w1 w2 v h _; simp [getIdx] at h
  | cons x t ih =>
    intro i r1 r2 w1 w2 v h heq
    cases i with
    | zero => simp [getIdx] at h; subst h; simp [setItem, heq]
    | succ j => simp [getIdx] at h; simp [setItem, ih j r1 r2 w1 w2 v h heq]

theorem setPath_snoc_key : ∀ (p : List Step) (d : Val) (es : List (String × Val))
    (k : String) (w : Val), getPath d p = some (.obj es) →
    setPath d (p ++ [.key k]) w = setPath d p (.obj (updateKey es k w)) := by
  intro p
  induction p with
  | nil =>
    intro d es k w h
    simp [getPath] at h
    subst h
    simp [setPath, updateKey]
  | cons s rest ih =>
    intro d es k w h
    cases s with
    | key k0 =>
      cases d with
      | obj es0 =>
        simp only [getPath, Option.bind_eq_some] at h
        obtain ⟨v, hv, hrest⟩ := h
        simp only [List.cons_append, setPath]
        exact congrArg Val.obj (setEntry_congr es0 k0 (rest ++ [.key k]) rest w
          (.obj (updateKey es k w)) v hv (ih v es k w hrest))
      | str s => simp [getPath] at h
      | num n => simp [getPath] at h
      | bool b => simp [getPath] at h
      | null => simp [getPath] at h
      | arr xs => simp [getPath] at h
    | idx i =>
      cases d with
      | arr xs =>
        simp only [getPath, Option.bind_eq_some] at h
        obtain ⟨v, hv, hrest⟩ := h
        simp only [List.cons_append, setPath]
        exact congrArg Val.arr (setItem_congr xs i (rest ++ [.key k]) rest w
          (.obj (updateKey es k w)) v hv (ih v es k w hrest))
      | str s => simp [getPath] at h
      | num n => simp [getPath] at h
      | bool b => simp [getPath] at h
      | null => simp [getPath] at h
      | obj es0 => simp [getPath] at h

theorem setPath_snoc_idx : ∀ (p : List Step) (d : Val) (xs : List Val) (i : Nat) (w : Val),
    getPath d p = some (.arr xs) →
    setPath d (p ++ [.idx i]) w = setPath d p (.arr (setItem xs i [] w)) := by
  intro p
  induction p with
  | nil =>
    intro d xs i w h
    simp [getPath] at h
    subst h
    simp [setPath]
  | cons s rest ih =>
    intro d xs i w h
    cases s with
    | key k0 =>
      cases d with
      | obj es0 =>
        simp only [getPath, Option.bind_eq_some] at h
        obtain ⟨v, hv, hrest⟩ := h
        simp only [List.cons_append, setPath]
        exact congrArg Val.obj (setEntry_congr es0 k0 (rest ++ [.idx i]) rest w
          (.arr (setItem xs i [] w)) v hv (ih v xs i w hrest))
      | str s => simp [getPath] at h
      | num n => simp [getPath] at h
      | bool b => simp [getPath] at h
      | null => simp [getPath] at h
      | arr xs0 => simp [getPath] at h
    | idx j =>
      cases d with
      | arr xs0 =>
        simp only [getPath, Option.bind_eq_some] at h
        obtain ⟨v, hv, hrest⟩ := h
        simp only [List.cons_append, setPath]
        exact congrArg Val.arr (setItem_congr xs0 j (rest ++ [.idx i]) rest w
          (.arr (setItem xs i [] w)) v hv (ih v xs i w hrest))
      | str s => simp [getPath] at h
      | num n => simp [getPath] at h
      | bool b => simp [getPath] at h
      | null => simp [getPath] at h
      | obj es0 => simp [getPath] at h

theorem setEntry_id : ∀ (es : List (String × Val)) (k : String) (r : List Step) (w v : Val),
    lookupKey es k = some v → setPath v r w = v → setEntry es k r w = es := by
  intro es k r w v
  induction es with
  | nil => intro h _; simp [lookupKey] at h
  | cons p rest ih =>
    intro h heq
    obtain ⟨k0, v0⟩ := p
    by_cases hk : k0 = k
    · subst hk
      simp [lookupKey] at h
      subst h
      simp [setEntry, heq]
    · simp [lookupKey, hk] at h
      simp [setEntry, hk, ih h heq]

theorem setItem_id : ∀ (xs : List Val) (i : Nat) (r : List Step) (w v : Val),
    getIdx xs i = some v → setPath v r w = v → setItem xs i r w = xs := by
  intro xs
  induction xs with
  | nil => intro i r w v h _; simp [getIdx] at h
  | cons x t ih =>
    intro i r w v h heq
    cases i with
    | zero => simp [getIdx] at h; subst h; simp [setItem, heq]
    | succ j => simp [getIdx] at h; simp [setItem, ih j r w v h heq]

theorem setPath_id : ∀ (p : List Step) (d n : Val), getPath d p = some n →
    setPath d p n = d := by
  intro p
  induction p with
  | nil => intro d n h; simp [getPath] at h; simp [setPath, h]
  | cons s rest ih =>
    intro d n h
    cases s with
    | key k =>
      cases d with
      | obj es =>
        simp only [getPath, Option.bind_eq_some] at h
        obtain ⟨v, hv, hrest⟩ := h
        simp only [setPath]
        exact congrArg Val.obj (setEntry_id es k rest n v hv (ih v n hrest))
      | str s => simp [getPath] at h
      | num n0 => simp [getPath] at h
      | bool b => simp [getPath] at h
      | null => simp [getPath] at h
      | arr xs => simp [getPath] at h
    | idx i =>
      cases d with
      | arr xs =>
        simp only [getPath, Option.bind_eq_some] at h
        obtain ⟨v, hv, hrest⟩ := h
        simp only [setPath]
        exact congrArg Val.arr (setItem_id xs i rest n v hv (ih v n hrest))
      | str s => simp [getPath] at h
      | num n0 => simp [getPath] at h
      | bool b => simp [getPath] at h
      | null => simp [getPath] at h
      | obj es => simp [getPath] at h

theorem setEntry_setEntry : ∀ (es : List (String × Val)) (k : String) (r : List Step)
    (x y : Val), (∀ v : Val, setPath (setPath v r x) r y = setPath v r y) →
    setEntry (setEntry es k r x) k r y = setEntry es k r y := by
  intro es k r x y hv
  induction es with
  | nil => simp [setEntry]
  | cons p rest ih =>
    obtain ⟨k0, v0⟩ := p
    by_cases hk : k0 = k
    · subst hk; simp [setEntry, hv]
    · simp [setEntry, hk, ih]

theorem setItem_setItem : ∀ (xs : List Val) (i : Nat) (r : List Step) (x y : Val),
    (∀ v : Val, setPath (setPath v r x) r y = setPath v r y) →
    setItem (setItem xs i r x) i r y = setItem xs i r y := by
  intro xs
  induction xs with
  | nil => intro i r x y _; simp [setItem]
  | cons v0 t ih =>
    intro i r x y hv
    cases i with
    | zero => simp [setItem, hv]
    | succ j => simp [setItem, ih j r x y hv]

theorem setPath_setPath : ∀ (p : List Step) (d x y : Val),
    setPath (setPath d p x) p y = setPath d p y := by
  intro p
  induction p with
  | nil => intro d x y; simp [setPath]
  | cons s rest ih =>
    intro d x y
    cases s with
    | key k =>
      cases d with
      | obj es =>
        simp only [setPath]
        exact congrArg Val.obj (setEntry_setEntry es k rest x y (fun v => ih v x y))
      | str s => simp [setPath]
      | num n => simp [setPath]
      | bool b => simp [setPath]
      | null => simp [setPath]
      | arr xs => simp [setPath]
    | idx i =>
      cases d with
      | arr xs =>
        simp only [setPath]
        exact congrArg Val.arr (setItem_setItem xs i rest x y (fun v => ih v x y))
      | str s => simp [setPath]
      | num n => simp [setPath]
      | bool b => simp [setPath]
      | null => simp [setPath]
      | obj es => simp [setPath]

/-! Lemmas about dictionary operations. -/

theorem setPath_nil : ∀ (v w : Val), setPath v [] w = w := by
  intro v w; simp [setPath]

theorem lookupKey_updateKey_self : ∀ (es : List (String × Val)) (k : String) (w v : Val),
    lookupKey es k = some v → lookupKey (updateKey es k w) k = some w := by
  intro es k w v h
  have := lookupKey_setEntry_self es k [] w v h
  rwa [setPath_nil] at this

theorem updateKey_id : ∀ (es : List (String × Val)) (k : String) (v : Val),
    lookupKey es k = some v → updateKey es k v = es := by
  intro es k v h
  exact setEntry_id es k [] v v h (setPath_nil v v)

theorem removeKey_lookup_self : ∀ (es : List (String × Val)) (k : String),
    lookupKey (removeKey es k) k = none := by
  intro es k
  induction es with
  | nil => simp [removeKey, lookupKey]
  | cons p rest ih =>
    obtain ⟨k0, v0⟩ := p
    by_cases hk : k0 = k
    · subst hk; simp [removeKey, ih]
    · simp [removeKey, hk, lookupKey, ih]

theorem hasKey_false_lookup : ∀ (es : List (String × Val)) (k : String),
    hasKey es k = false → lookupKey es k = none := by
  intro es k h
  induction es with
  | nil => simp [lookupKey]
  | cons p rest ih =>
    obtain ⟨k0, v0⟩ := p
    simp [hasKey] at h
    obtain ⟨h1, h2⟩ := h
    simp [lookupKey, h1]
    exact ih (by simpa [hasKey] using h2)

theorem lookup_none_hasKey : ∀ (es : List (String × Val)) (k : String),
    lookupKey es k = none → hasKey es k = false := by
  intro es k h
  induction es with
  | nil => simp [hasKey]
  | cons p rest ih =>
    obtain ⟨k0, v0⟩ := p
    by_cases hk : k0 = k
    · subst hk; simp [lookupKey] at h
    · simp [lookupKey, hk] at h
      simp [hasKey, hk, ih h]
      exact (by simpa [hasKey] using ih h)

theorem removeKey_id : ∀ (es : List (String × Val)) (k : String),
    lookupKey es k = none → removeKey es k = es := by
  intro es k h
  induction es with
  | nil => simp [removeKey]
  | cons p rest ih =>
    obtain ⟨k0, v0⟩ := p
    by_cases hk : k0 = k
    · subst hk; simp [lookupKey] at h
    · simp [lookupKey, hk] at h
      simp [removeKey, hk, ih h]

theorem lookupKey_append_right : ∀ (es : List (String × Val)) (k : String) (v : Val),
    lookupKey es k = none → lookupKey (es ++ [(k, v)]) k = some v := by
  intro es k v h
  induction es with
  | nil => simp [lookupKey]
  | cons p rest ih =>
    obtain ⟨k0, v0⟩ := p
    by_cases hk : k0 = k
    · subst hk; simp [lookupKey] at h
    · simp [lookupKey, hk] at h ⊢
      exact ih h

/-! Lemmas about the hoisting loops. -/

theorem hoistMethods_lookup : ∀ (params : Val) (ms ms1 : List (String × Val)) (k : String)
    (m : Val), hoistMethods params ms = some ms1 → lookupKey ms k = some m →
    ∃ m1, hoistMethod params m = some m1 ∧ lookupKey ms1 k = some m1 := by
  intro params ms
  induction ms with
  | nil => intro ms1 k m _ h; simp [lookupKey] at h
  | cons p rest ih =>
    intro ms1 k m hh hl
    obtain ⟨k0, m0⟩ := p
    simp only [hoistMethods, Option.bind_eq_some, Option.map_eq_some'] at hh
    obtain ⟨m2, hm2, r, hr, hms1⟩ := hh
    by_cases hk : k0 = k
    · subst hk
      simp [lookupKey] at hl
      subst hl
      exact ⟨m2, hm2, by simp [← hms1, lookupKey]⟩
    · simp [lookupKey, hk] at hl
      obtain ⟨m1, hm1, hl1⟩ := ih r k m hr hl
      exact ⟨m1, hm1, by simp [← hms1, lookupKey, hk, hl1]⟩

theorem hoistMethods_lookup_none : ∀ (params : Val) (ms ms1 : List (String × Val))
    (k : String), hoistMethods params ms = some ms1 → lookupKey ms k = none →
    lookupKey ms1 k = none := by
  intro params ms
  induction ms with
  | nil => intro ms1 k hh hl; simp [hoistMethods] at hh; subst hh; simp [lookupKey]
  | cons p rest ih =>
    intro ms1 k hh hl
    obtain ⟨k0, m0⟩ := p
    simp only [hoistMethods, Option.bind_eq_some, Option.map_eq_some'] at hh
    obtain ⟨m2, hm2, r, hr, hms1⟩ := hh
    by_cases hk : k0 = k
    · subst hk; simp [lookupKey] at hl
    · simp [lookupKey, hk] at hl
      simp [← hms1, lookupKey, hk, ih r k hr hl]

theorem hoistEndpoints_lookup : ∀ (pes pes1 : List (String × Val)) (k : String) (ep : Val),
    hoistEndpoints pes = some pes1 → lookupKey pes k = some ep →
    ∃ ep1, hoistEndpoint ep = some ep1 ∧ lookupKey pes1 k = some ep1 := by
  intro pes
  induction pes with
  | nil => intro pes1 k ep _ h; simp [lookupKey] at h
  | cons p rest ih =>
    intro pes1 k ep hh hl
    obtain ⟨k0, ep0⟩ := p
    simp only [hoistEndpoints, Option.bind_eq_some, Option.map_eq_some'] at hh
    obtain ⟨ep2, hep2, r, hr, hpes1⟩ := hh
    by_cases hk : k0 = k
    · subst hk
      simp [lookupKey] at hl
      subst hl
      exact ⟨ep2, hep2, by simp [← hpes1, lookupKey]⟩
    · simp [lookupKey, hk] at hl
      obtain ⟨ep1, hep1, hl1⟩ := ih r k ep hr hl
      exact ⟨ep1, hep1, by simp [← hpes1, lookupKey, hk, hl1]⟩

theorem hoistMethod_normalized : ∀ (params m m1 : Val),
    hoistMethod params m = some m1 → operationNormalized m1 = true := by
  intro params m m1 h
  cases m with
  | obj es =>
    cases params with
    | arr ps =>
      simp only [hoistMethod] at h
      cases hl : lookupKey es "parameters" with
      | none =>
        simp [hl] at h
        simp [← h, operationNormalized, lookupKey_append_right es "parameters" _ hl]
      | some pv =>
        cases pv with
        | arr ps0 =>
          simp [hl] at h
          have := lookupKey_updateKey_self es "parameters" (.arr (ps0 ++ ps)) (.arr ps0) hl
          simp [← h, operationNormalized, this]
        | str s => simp [hl] at h
        | num n => simp [hl] at h
        | bool b => simp [hl] at h
        | null => simp [hl] at h
        | obj es2 => simp [hl] at h
    | str s => simp [hoistMethod] at h
    | num n => simp [hoistMethod] at h
    | bool b => simp [hoistMethod] at h
    | null => simp [hoistMethod] at h
    | obj es2 => simp [hoistMethod] at h
  | str s => simp [hoistMethod] at h
  | num n => simp [hoistMethod] at h
  | bool b => simp [hoistMethod] at h
  | null => simp [hoistMethod] at h
  | arr xs => simp [hoistMethod] at h

theorem hoistMethods_all_normalized : ∀ (params : Val) (ms ms1 : List (String × Val)),
    hoistMethods params ms = some ms1 → ∀ p ∈ ms1, operationNormalized p.2 = true := by
  intro params ms
  induction ms with
  | nil => intro ms1 h p hp; simp [hoistMethods] at h; subst h; simp at hp
  | cons q rest ih =>
    intro ms1 h p hp
    obtain ⟨k0, m0⟩ := q
    simp only [hoistMethods, Option.bind_eq_some, Option.map_eq_some'] at h
    obtain ⟨m2, hm2, r, hr, hms1⟩ := h
    rw [← hms1] at hp
    rcases List.mem_cons.mp hp with h1 | h1
    · rw [h1]; exact hoistMethod_normalized params m0 m2 hm2
    · exact ih r hr p h1

theorem hoistEndpoint_normalized : ∀ (ep ep1 : Val),
    hoistEndpoint ep = some ep1 → endpointNormalized ep1 = true := by
  intro ep ep1 h
  cases ep with
  | obj es =>
    simp only [hoistEndpoint, Option.map_eq_some'] at h
    obtain ⟨es1, hes1, hep1⟩ := h
    have hnone : lookupKey es1 "parameters" = none :=
      hoistMethods_lookup_none _ _ es1 "parameters" hes1 (removeKey_lookup_self es "parameters")
    have hall := hoistMethods_all_normalized _ _ es1 hes1
    simp only [← hep1, endpointNormalized, hnone, Option.isNone_none, Bool.true_and,
      List.all_eq_true]
    exact fun p hp => hall p hp
  | str s => simp [hoistEndpoint] at h
  | num n => simp [hoistEndpoint] at h
  | bool b => simp [hoistEndpoint] at h
  | null => simp [hoistEndpoint] at h
  | arr xs => simp [hoistEndpoint] at h

theorem hoistEndpoints_all_normalized : ∀ (pes pes1 : List (String × Val)),
    hoistEndpoints pes = some pes1 → ∀ p ∈ pes1, endpointNormalized p.2 = true := by
  intro pes
  induction pes with
  | nil => intro pes1 h p hp; simp [hoistEndpoints] at h; subst h; simp at hp
  | cons q rest ih =>
    intro pes1 h p hp
    obtain ⟨k0, ep0⟩ := q
    simp only [hoistEndpoints, Option.bind_eq_some, Option.map_eq_some'] at h
    obtain ⟨ep2, hep2, r, hr, hpes1⟩ := h
    rw [← hpes1] at hp
    rcases List.mem_cons.mp hp with h1 | h1
    · rw [h1]; exact hoistEndpoint_normalized ep0 ep2 hep2
    · exact ih r hr p h1

theorem normalize_tree_shape : ∀ (spec norm : Val), normalize_tree spec = some norm →
    ∃ ses pes pes1, spec = .obj ses ∧ lookupKey ses "paths" = some (.obj pes) ∧
      hoistEndpoints pes = some pes1 ∧
      norm = .obj (updateKey ses "paths" (.obj pes1)) := by
  intro spec norm h
  cases spec with
  | obj ses =>
    simp only [normalize_tree] at h
    cases hl : lookupKey ses "paths" with
    | none => rw [hl] at h; simp at h
    | some pv =>
      rw [hl] at h
      cases pv with
      | obj pes =>
        simp only [Option.map_eq_some'] at h
        obtain ⟨pes1, hp1, hn⟩ := h
        exact ⟨ses, pes, pes1, rfl, hl, hp1, hn.symm⟩
      | str s => simp at h
      | num n => simp at h
      | bool b => simp at h
      | null => simp at h
      | arr xs => simp at h
  | str s => simp [normalize_tree] at h
  | num n => simp [normalize_tree] at h
  | bool b => simp [normalize_tree] at h
  | null => simp [normalize_tree] at h
  | arr xs => simp [normalize_tree] at h

theorem normalize_tree_normalized : ∀ (spec norm : Val), normalize_tree spec = some norm →
    treeNormalized norm = true := by
  intro spec norm h
  obtain ⟨ses, pes, pes1, _, hl, hp1, hn⟩ := normalize_tree_shape spec norm h
  have hlook := lookupKey_updateKey_self ses "paths" (.obj pes1) (.obj pes) hl
  have hall := hoistEndpoints_all_normalized pes pes1 hp1
  subst hn
  simp only [treeNormalized, hlook, List.all_eq_true]
  exact fun p hp => hall p hp

theorem hoistMethod_id : ∀ (m : Val), operationNormalized m = true →
    hoistMethod (.arr []) m = some m := by
  intro m h
  cases m with
  | obj es =>
    simp only [operationNormalized] at h
    cases hl : lookupKey es "parameters" with
    | none => rw [hl] at h; simp at h
    | some pv =>
      rw [hl] at h
      cases pv with
      | arr ps0 =>
        simp only [hoistMethod, hl, List.append_nil]
        rw [updateKey_id es "parameters" (.arr ps0) hl]
      | str s => simp at h
      | num n => simp at h
      | bool b => simp at h
      | null => simp at h
      | obj es2 => simp at h
  | str s => simp [operationNormalized] at h
  | num n => simp [operationNormalized] at h
  | bool b => simp [operationNormalized] at h
  | null => simp [operationNormalized] at h
  | arr xs => simp [operationNormalized] at h

theorem hoistMethods_id : ∀ (ms : List (String × Val)),
    (∀ p ∈ ms, operationNormalized p.2 = true) → hoistMethods (.arr []) ms = some ms := by
  intro ms
  induction ms with
  | nil => intro _; simp [hoistMethods]
  | cons q rest ih =>
    intro h
    obtain ⟨k0, m0⟩ := q
    have h0 : operationNormalized m0 = true := h (k0, m0) (List.mem_cons_self _ _)
    have hr : ∀ p ∈ rest, operationNormalized p.2 = true :=
      fun p hp => h p (List.mem_cons_of_mem _ hp)
    simp [hoistMethods, hoistMethod_id m0 h0, ih hr]

theorem hoistEndpoint_id : ∀ (ep : Val), endpointNormalized ep = true →
    hoistEndpoint ep = some ep := by
  intro ep h
  cases ep with
  | obj es =>
    simp only [endpointNormalized, Bool.and_eq_true, Option.isNone_iff_eq_none,
      List.all_eq_true] at h
    obtain ⟨hnone, hall⟩ := h
    simp only [hoistEndpoint, hnone, Option.getD_none, removeKey_id es "parameters" hnone]
    simp [hoistMethods_id es (fun p hp => hall p hp)]
  | str s => simp [endpointNormalized] at h
  | num n => simp [endpointNormalized] at h
  | bool b => simp [endpointNormalized] at h
  | null => simp [endpointNormalized] at h
  | arr xs => simp [endpointNormalized] at h

theorem hoistEndpoints_id : ∀ (pes : List (String × Val)),
    (∀ p ∈ pes, endpointNormalized p.2 = true) → hoistEndpoints pes = some pes := by
  intro pes
  induction pes with
  | nil => intro _; simp [hoistEndpoints]
  | cons q rest ih =>
    intro h
    obtain ⟨k0, ep0⟩ := q
    have h0 : endpointNormalized ep0 = true := h (k0, ep0) (List.mem_cons_self _ _)
    have hr : ∀ p ∈ rest, endpointNormalized p.2 = true :=
      fun p hp => h p (List.mem_cons_of_mem _ hp)
    simp [hoistEndpoints, hoistEndpoint_id ep0 h0, ih hr]

/-- C2: for every mapping node containing the dollar-ref key, the
resolver substitutes the node with the resolved target value and does
not re-resolve the substituted result within that same visit: the
visit returns the document with the raw target written at the node
position, so if the target is itself a mapping containing dollar-ref,
that inner reference is still there after this visit. -/
theorem do_resolve_single_substitution : ∀ (doc : Val) (path : List Step)
    (es : List (String × Val)) (u : String) (t : Val),
    lookupKey es "$ref" = some (.str u) →
    resolveUri doc u = some t →
    getPath doc path = some (.obj es) →
    do_resolve doc path (.obj es) = some (setPath doc path t) ∧
    getPath (setPath doc path t) path = some t := by
  intro doc path es u t h1 h2 h3
  constructor
  · simp [do_resolve, h1, h2]
  · exact getPath_setPath_self path doc (.obj es) t h3

/-- Witness for C2 on chainDoc: the visit of position a substitutes
the raw value of b, itself a Reference Node, and leaves it
unresolved at position a. -/
theorem do_resolve_single_substitution_witness :
    do_resolve chainDoc [.key "a"] (.obj [("$ref", .str "#/b")])
      = some (setPath chainDoc [.key "a"] (.obj [("$ref", .str "#/c")])) ∧
    getPath (setPath chainDoc [.key "a"] (.obj [("$ref", .str "#/c")])) [.key "a"]
      = some (.obj [("$ref", .str "#/c")]) :=
  do_resolve_single_substitution chainDoc [.key "a"] [("$ref", .str "#/b")] "#/b"
    (.obj [("$ref", .str "#/c")]) rfl rfl rfl

/-- C3: for every endpoint entry under paths with a top-level
parameters sequence p1 and a method entry whose operation has
parameters p2, after normalization the operation parameters are
p2 followed by p1 (operation-specific first, endpoint-level appended
after, in order) and the endpoint entry no longer has a top-level
parameters key. -/
theorem normalize_parameter_hoisting : ∀ (spec norm : Val) (pes : List (String × Val))
    (ep : String) (es : List (String × Val)) (p1 : List Val) (k : String)
    (mes : List (String × Val)) (p2 : List Val),
    normalize_tree spec = some norm →
    pathsEndpoints spec = some pes →
    lookupKey pes ep = some (.obj es) →
    lookupKey es "parameters" = some (.arr p1) →
    lookupKey (removeKey es "parameters") k = some (.obj mes) →
    lookupKey mes "parameters" = some (.arr p2) →
    ∃ pes1 es1 mes1, pathsEndpoints norm = some pes1 ∧
      lookupKey pes1 ep = some (.obj es1) ∧
      lookupKey es1 "parameters" = none ∧
      lookupKey es1 k = some (.obj mes1) ∧
      lookupKey mes1 "parameters" = some (.arr (p2 ++ p1)) := by
  intro spec norm pes ep es p1 k mes p2 hnorm hpe hlep hparam hmk hp2
  obtain ⟨ses, pes0, pes1, hspec, hl, hp1, hn⟩ := normalize_tree_shape spec norm hnorm
  subst hspec
  simp only [pathsEndpoints, hl, Option.some_inj] at hpe
  rw [← hpe] at hlep
  have hnormpe : pathsEndpoints norm = some pes1 := by
    subst hn
    have := lookupKey_updateKey_self ses "paths" (.obj pes1) (.obj pes0) hl
    simp [pathsEndpoints, this]
  obtain ⟨ep1, hep1, hlep1⟩ := hoistEndpoints_lookup pes0 pes1 ep (.obj es) hp1 hlep
  simp only [hoistEndpoint, hparam, Option.getD_some, Option.map_eq_some'] at hep1
  obtain ⟨es1, hes1, hepeq⟩ := hep1
  have hnone : lookupKey es1 "parameters" = none :=
    hoistMethods_lookup_none _ _ es1 "parameters" hes1 (removeKey_lookup_self es "parameters")
  obtain ⟨m1, hm1, hlk⟩ := hoistMethods_lookup (.arr p1) _ es1 k (.obj mes) hes1 hmk
  simp only [hoistMethod, hp2] at hm1
  refine ⟨pes1, es1, updateKey mes "parameters" (.arr (p2 ++ p1)), hnormpe, ?_, hnone, ?_, ?_⟩
  · rw [← hepeq] at hlep1; exact hlep1
  · rw [← hm1] at hlk; exact hlk
  · exact lookupKey_updateKey_self mes "parameters" (.arr (p2 ++ p1)) (.arr p2) hp2

/-- Witness for C3 on itemsSpec: endpoint /items with parameters [P1]
and operation get with parameters [P2] normalizes to get.parameters
= [P2, P1] and no endpoint-level parameters key. -/
theorem normalize_parameter_hoisting_witness :
    ∃ pes1 es1 mes1, pathsEndpoints itemsNormalized = some pes1 ∧
      lookupKey pes1 "/items" = some (.obj es1) ∧
      lookupKey es1 "parameters" = none ∧
      lookupKey es1 "get" = some (.obj mes1) ∧
      lookupKey mes1 "parameters" = some (.arr ([.str "P2"] ++ [.str "P1"])) :=
  normalize_parameter_hoisting itemsSpec itemsNormalized
    [("/items", .obj [("parameters", .arr [.str "P1"]),
                      ("get", .obj [("parameters", .arr [.str "P2"])])])]
    "/items"
    [("parameters", .arr [.str "P1"]), ("get", .obj [("parameters", .arr [.str "P2"])])]
    [.str "P1"] "get" [("parameters", .arr [.str "P2"])] [.str "P2"]
    rfl rfl rfl rfl rfl rfl

/-- C4: after the normalization loop completes on a resolved document
with a paths mapping, no endpoint entry has a top-level parameters
key and every operation of every endpoint has a parameters key
holding a sequence, possibly empty. -/
theorem normalize_tree_invariant : ∀ (spec norm : Val), normalize_tree spec = some norm →
    treeNormalized norm = true :=
  fun spec norm h => normalize_tree_normalized spec norm h

/-- Witness for C4 on itemsSpec. -/
theorem normalize_tree_invariant_witness : treeNormalized itemsNormalized = true :=
  normalize_tree_invariant itemsSpec itemsNormalized rfl

/-- C5: applying the normalization loop to an already-normalized
document is a no-op: it succeeds and returns the document unchanged,
so no endpoint gains or retains a top-level parameters key and no
operation parameter list changes length or content. -/
theorem normalize_tree_idempotent : ∀ (spec : Val), treeNormalized spec = true →
    normalize_tree spec = some spec := by
  intro spec h
  cases spec with
  | obj ses =>
    simp only [treeNormalized] at h
    cases hl : lookupKey ses "paths" with
    | none => rw [hl] at h; simp at h
    | some pv =>
      rw [hl] at h
      cases pv with
      | obj pes =>
        simp only [List.all_eq_true] at h
        simp [normalize_tree, hl, hoistEndpoints_id pes (fun p hp => h p hp),
          updateKey_id ses "paths" (.obj pes) hl]
      | str s => simp at h
      | num n => simp at h
      | bool b => simp at h
      | null => simp at h
      | arr xs => simp at h
  | str s => simp [treeNormalized] at h
  | num n => simp [treeNormalized] at h
  | bool b => simp [treeNormalized] at h
  | null => simp [treeNormalized] at h
  | arr xs => simp [treeNormalized] at h

/-- Witness for C5: itemsNormalized is already normalized and the
loop returns it unchanged. -/
theorem normalize_tree_idempotent_witness :
    normalize_tree itemsNormalized = some itemsNormalized :=
  normalize_tree_idempotent itemsNormalized rfl

/-- C1 counterexample: chainDoc has an acyclic reference graph (every
chain of immediate reference targets stops within five steps), its
resolution completes, and the returned tree is not free of Reference
Nodes: position a still holds the mapping with the dollar-ref key
pointing at c, substituted from the then-raw value of b and never
revisited. -/
theorem resolve_acyclic_counterexample :
    acyclicWithin chainDoc 5 = true ∧
    resolve_refs "" chainDoc = some chainDocResolved ∧
    refFree chainDocResolved = false ∧
    getPath chainDocResolved [.key "a"] = some (.obj [("$ref", .str "#/c")]) ∧
    isRefNode (.obj [("$ref", .str "#/c")]) = true :=
  ⟨rfl, rfl, rfl, rfl, rfl⟩

/-- C6: when the caller supplies explicit endpoint paths and at least
one is not a key of the paths mapping, the pipeline fails with the
unknown-paths error carrying exactly the requested paths that are not
defined in the spec. -/
theorem unknown_paths_error : ∀ (uri : String) (ps : List String) (spec : Val)
    (ces pes : List (String × Val)),
    isRefNode spec = false →
    normalize_spec uri spec = some (.obj ces) →
    lookupKey ces "paths" = some (.obj pes) →
    ps.filter (fun p => (lookupKey pes p).isNone) ≠ [] →
    (openapi2httpdomain uri (some ps) spec).1
      = .error (.unknownPaths (ps.filter (fun p => (lookupKey pes p).isNone))) ∧
    ∀ p : String, p ∈ ps.filter (fun p => (lookupKey pes p).isNone) ↔
      p ∈ ps ∧ lookupKey pes p = none := by
  intro uri ps spec ces pes href hns hpl hne
  constructor
  · have hemp : (ps.filter (fun p => (lookupKey pes p).isNone)).isEmpty = false := by
      cases hfe : ps.filter (fun p => (lookupKey pes p).isNone) with
      | nil => exact absurd hfe hne
      | cons a l => simp
    simp [openapi2httpdomain, hns, href, hpl, hemp]
  · intro p
    simp [List.mem_filter, Option.isNone_iff_eq_none]

/-- Witness for C6: requesting /missing against a spec whose paths
mapping defines only /pets fails naming /missing. -/
theorem unknown_paths_error_witness :
    (openapi2httpdomain "" (some ["/missing"]) petsSpec).1
      = .error (.unknownPaths ["/missing"]) := by
  have h := unknown_paths_error "" ["/missing"] petsSpec
    [("paths", .obj [("/pets", .obj [("get", .obj [("parameters", .arr [])])])])]
    [("/pets", .obj [("get", .obj [("parameters", .arr [])])])]
    rfl rfl rfl (by decide)
  exact h.1

theorem hasKey_false_forall : ∀ (es : List (String × Val)) (k : String),
    hasKey es k = false → ∀ p ∈ es, p.1 ≠ k := by
  intro es k h p hp
  simp only [hasKey, List.any_eq_false] at h
  have := h p hp
  simpa using this

theorem emitOps_skip : ∀ (ks : List String) (pes : List (String × Val)) (k0 : String)
    (v0 : Val), (∀ k ∈ ks, k0 ≠ k) →
    emitOps ((k0, v0) :: pes) ks = emitOps pes ks := by
  intro ks
  induction ks with
  | nil => intro pes k0 v0 _; simp [emitOps]
  | cons k rest ih =>
    intro pes k0 v0 h
    have hk : k0 ≠ k := h k (List.mem_cons_self _ _)
    simp only [emitOps, lookupKey, if_neg hk,
      ih pes k0 v0 (fun k2 hk2 => h k2 (List.mem_cons_of_mem _ hk2))]

theorem emitOps_all : ∀ (pes : List (String × Val)), nodupKeys pes = true →
    (∀ p ∈ pes, ∃ ms, p.2 = Val.obj ms) →
    emitOps pes (pes.map (fun p => p.1)) = some (flattenOps pes) := by
  intro pes
  induction pes with
  | nil => intro _ _; simp [emitOps, flattenOps]
  | cons q rest ih =>
    intro hnd hobj
    obtain ⟨k0, v0⟩ := q
    simp only [nodupKeys, Bool.and_eq_true, Bool.not_eq_true'] at hnd
    obtain ⟨hh, hnd1⟩ := hnd
    obtain ⟨ms, hms⟩ := hobj (k0, v0) (List.mem_cons_self _ _)
    simp only at hms
    subst hms
    have hskip := emitOps_skip (rest.map (fun p => p.1)) rest k0 (.obj ms)
      (by
        intro k hk
        obtain ⟨p, hp, hpk⟩ := List.mem_map.mp hk
        rw [← hpk]
        exact fun hcon => (hasKey_false_forall rest k0 hh p hp) hcon.symm)
    have hrest := ih hnd1 (fun p hp => hobj p (List.mem_cons_of_mem _ hp))
    simp [emitOps, lookupKey, flattenOps, hskip, hrest]

/-- C7: with no explicit paths filter, the pipeline emits the
operations of every endpoint in the insertion order of the paths
mapping, methods in endpoint order: the output is exactly flattenOps
of the endpoint list. -/
theorem paths_order_preserved : ∀ (uri : String) (spec : Val)
    (ces pes : List (String × Val)),
    isRefNode spec = false →
    normalize_spec uri spec = some (.obj ces) →
    lookupKey ces "paths" = some (.obj pes) →
    nodupKeys pes = true →
    (∀ p ∈ pes, ∃ ms, p.2 = Val.obj ms) →
    (openapi2httpdomain uri none spec).1 = .ok (flattenOps pes) := by
  intro uri spec ces pes href hns hpl hnd hobj
  simp [openapi2httpdomain, hns, href, hpl, emitOps_all pes hnd hobj]

/-- Witness for C7: paths keys /b then /a yield the operations of /b
before those of /a. -/
theorem paths_order_preserved_witness :
    (openapi2httpdomain "" none baSpec).1
      = .ok [("/b", "get", .obj [("parameters", .arr [])]),
             ("/b", "put", .obj [("parameters", .arr [])]),
             ("/a", "get", .obj [("parameters", .arr [])])] := by
  have h := paths_order_preserved "" baSpec
    [("paths", .obj [("/b", .obj [("get", .obj [("parameters", .arr [])]),
                                  ("put", .obj [("parameters", .arr [])])]),
                     ("/a", .obj [("get", .obj [("parameters", .arr [])])])])]
    [("/b", .obj [("get", .obj [("parameters", .arr [])]),
                  ("put", .obj [("parameters", .arr [])])]),
     ("/a", .obj [("get", .obj [("parameters", .arr [])])])]
    rfl rfl rfl rfl
    (by
      intro p hp
      fin_cases hp
      · exact ⟨_, rfl⟩
      · exact ⟨_, rfl⟩)
  exact h

/-- C8: resolving the fragment-only reference against a tree whose
paths mapping has the key slash-pets-slash-braced-id yields that
endpoint's get object; the per-segment unescaping rules are applied
to each pointer segment before it is looked up as a mapping key. -/
theorem fragment_pointer_resolution : ∀ (g : Val),
    resolveUri (.obj [("paths", .obj [("/pets/{id}", .obj [("get", g)])])])
      "#/paths/~1pets~1{id}/get" = some g ∧
    unescapeSegment "~1pets~1{id}" = "/pets/{id}" ∧
    unescapeSegment "~1" = "/" ∧ unescapeSegment "~0" = "~" := by
  intro g
  exact ⟨rfl, rfl, rfl, rfl⟩

/-- C9: the pipeline resolves references and hoists parameters before
validating the explicit paths list, so whenever the unknown-paths
error is raised the caller's tree already carries the normalized
content; on c9spec the error surfaces while the tree has its
reference resolved and its endpoint-level parameters hoisted, a tree
different from the original. -/
theorem mutation_before_unknown_path_error :
    (∀ (uri : String) (ps : List String) (spec norm : Val) (missing : List String),
      isRefNode spec = false →
      normalize_spec uri spec = some norm →
      (openapi2httpdomain uri (some ps) spec).1 = .error (.unknownPaths missing) →
      (openapi2httpdomain uri (some ps) spec).2 = some norm) ∧
    ((openapi2httpdomain "" (some ["/missing"]) c9spec).1
        = .error (.unknownPaths ["/missing"]) ∧
      (openapi2httpdomain "" (some ["/missing"]) c9spec).2 = some c9norm ∧
      refFree c9spec = false ∧ refFree c9norm = true ∧ c9norm ≠ c9spec) := by
  constructor
  · intro uri ps spec norm missing href hns _
    simp [openapi2httpdomain, hns, href]
  · refine ⟨rfl, rfl, rfl, rfl, ?_⟩
    intro h
    simp [c9norm, c9spec] at h

/-- Witness for C9: on c9spec the caller's tree at error time is the
normalized c9norm. -/
theorem mutation_before_unknown_path_error_witness :
    (openapi2httpdomain "" (some ["/missing"]) c9spec).2 = some c9norm :=
  mutation_before_unknown_path_error.1 "" ["/missing"] c9spec c9norm ["/missing"] rfl rfl rfl

/-- C10: the normalization step rebinds the resolved root only to a
local, so for a tree whose root is a Reference Node (and, as such
roots are, without a paths key) the pipeline continues with the
original unresolved root: the paths lookup fails with a key error
even though normalization succeeded on the resolved document, and the
caller's tree is the untouched original. -/
theorem root_reference_mishandled : ∀ (uri : String) (reqPaths : Option (List String))
    (es : List (String × Val)) (norm : Val),
    hasKey es "$ref" = true →
    lookupKey es "paths" = none →
    normalize_spec uri (.obj es) = some norm →
    (openapi2httpdomain uri reqPaths (.obj es)).1 = .error .keyError ∧
    (openapi2httpdomain uri reqPaths (.obj es)).2 = some (.obj es) := by
  intro uri rp es norm h1 h2 h3
  constructor
  · simp [openapi2httpdomain, h3, isRefNode, h1, h2]
  · simp [openapi2httpdomain, h3, isRefNode, h1]

/-- Witness for C10 on c10spec, whose root references its own d key
holding a document with a paths mapping. -/
theorem root_reference_mishandled_witness :
    (openapi2httpdomain "" none c10spec).1 = .error .keyError ∧
    (openapi2httpdomain "" none c10spec).2 = some c10spec :=
  root_reference_mishandled "" none [("$ref", .str "#/d"), ("d", .obj [("paths", .obj [])])]
    (.obj [("paths", .obj [])]) rfl rfl rfl

theorem evEntries_refl : ∀ (es : List (String × Val)), EvEntries es es := by
  intro es
  induction es with
  | nil => exact EvEntries.nil
  | cons p rest ih => exact EvEntries.cons p.1 p.2 p.2 rest rest (Ev.refl p.2) ih

theorem isRefNode_false_of_refFree : ∀ (v : Val), refFree v = true → isRefNode v = false := by
  intro v h
  cases v with
  | obj es =>
    simp only [refFree, Bool.and_eq_true, Bool.not_eq_true'] at h
    simp [isRefNode, h.1]
  | arr xs => simp [isRefNode]
  | str s => simp [isRefNode]
  | num n => simp [isRefNode]
  | bool b => simp [isRefNode]
  | null => simp [isRefNode]

theorem refFreeEntries_lookup : ∀ (es : List (String × Val)) (k : String) (v : Val),
    refFreeEntries es = true → lookupKey es k = some v → refFree v = true := by
  intro es k
  induction es with
  | nil => intro v _ h; simp [lookupKey] at h
  | cons p rest ih =>
    intro v hf hl
    obtain ⟨k0, v0⟩ := p
    simp only [refFreeEntries, Bool.and_eq_true] at hf
    by_cases hk : k0 = k
    · subst hk; simp [lookupKey] at hl; subst hl; exact hf.1
    · simp [lookupKey, hk] at hl; exact ih v hf.2 hl

theorem refFreeList_getIdx : ∀ (xs : List Val) (i : Nat) (v : Val),
    refFreeList xs = true → getIdx xs i = some v → refFree v = true := by
  intro xs
  induction xs with
  | nil => intro i v _ h; simp [getIdx] at h
  | cons x t ih =>
    intro i v hf hl
    simp only [refFreeList, Bool.and_eq_true] at hf
    cases i with
    | zero => simp [getIdx] at hl; subst hl; exact hf.1
    | succ j => simp [getIdx] at hl; exact ih j v hf.2 hl

theorem refFree_getPath : ∀ (p : List Step) (d y : Val),
    refFree d = true → getPath d p = some y → refFree y = true := by
  intro p
  induction p with
  | nil => intro d y hf h; simp [getPath] at h; subst h; exact hf
  | cons s rest ih =>
    intro d y hf h
    cases s with
    | key k =>
      cases d with
      | obj es =>
        simp only [getPath, Option.bind_eq_some] at h
        obtain ⟨v, hv, hrest⟩ := h
        simp only [refFree, Bool.and_eq_true] at hf
        exact ih v y (refFreeEntries_lookup es k v hf.2 hv) hrest
      | str s0 => simp [getPath] at h
      | num n0 => simp [getPath] at h
      | bool b0 => simp [getPath] at h
      | null => simp [getPath] at h
      | arr xs => simp [getPath] at h
    | idx i =>
      cases d with
      | arr xs =>
        simp only [getPath, Option.bind_eq_some] at h
        obtain ⟨v, hv, hrest⟩ := h
        simp only [refFree] at hf
        exact ih v y (refFreeList_getIdx xs i v hf hv) hrest
      | str s0 => simp [getPath] at h
      | num n0 => simp [getPath] at h
      | bool b0 => simp [getPath] at h
      | null => simp [getPath] at h
      | obj es => simp [getPath] at h

mutual

theorem ev_refFree_eq : ∀ (a b : Val), Ev a b → refFree a = true → b = a
  | _, _, .refl _, _ => rfl
  | _, _, .subst v _ hr _, hf => absurd hr (by simp [isRefNode_false_of_refFree v hf])
  | _, _, .obj es es' hes, hf => by
    have h2 : refFreeEntries es = true := by
      simp only [refFree, Bool.and_eq_true] at hf
      exact hf.2
    exact congrArg Val.obj (evEntries_refFree_eq es es' hes h2)
  | _, _, .arr xs xs' hxs, hf =>
    congrArg Val.arr (evList_refFree_eq xs xs' hxs (by simpa [refFree] using hf))

theorem evEntries_refFree_eq : ∀ (es es' : List (String × Val)), EvEntries es es' →
    refFreeEntries es = true → es' = es
  | _, _, .nil, _ => rfl
  | _, _, .cons k v v' tl tl' hv htl, hf => by
    simp only [refFreeEntries, Bool.and_eq_true] at hf
    rw [ev_refFree_eq v v' hv hf.1, evEntries_refFree_eq tl tl' htl hf.2]

theorem evList_refFree_eq : ∀ (xs xs' : List Val), EvList xs xs' →
    refFreeList xs = true → xs' = xs
  | _, _, .nil, _ => rfl
  | _, _, .cons v v' tl tl' hv htl, hf => by
    simp only [refFreeList, Bool.and_eq_true] at hf
    rw [ev_refFree_eq v v' hv hf.1, evList_refFree_eq tl tl' htl hf.2]

end

theorem evEntries_hasKey : ∀ (es es' : List (String × Val)) (k : String),
    EvEntries es es' → hasKey es' k = hasKey es k
  | _, _, _, .nil => rfl
  | _, _, k, .cons k0 v v' tl tl' _ htl => by
    have ih := evEntries_hasKey tl tl' k htl
    simp only [hasKey] at ih ⊢
    simp [List.any_cons, ih]

theorem ev_isRefNode : ∀ (a c : Val), Ev a c → isRefNode c = true → isRefNode a = true := by
  intro a c h
  cases h with
  | refl => exact id
  | subst =>
    intro hc
    rename_i hr hfw
    exact absurd hc (by simp [isRefNode_false_of_refFree c hfw])
  | obj es es' hes =>
    intro hc
    simp only [isRefNode] at hc ⊢
    rwa [evEntries_hasKey es es' _ hes] at hc
  | arr xs xs' _ =>
    intro hc
    simp [isRefNode] at hc

theorem evEntries_lookup : ∀ (es es' : List (String × Val)) (k : String) (v : Val),
    EvEntries es es' → lookupKey es k = some v →
    ∃ v', lookupKey es' k = some v' ∧ Ev v v' := by
  intro es
  induction es with
  | nil => intro es' k v _ hl; simp [lookupKey] at hl
  | cons p tl ih =>
    intro es' k v h hl
    obtain ⟨k0, v0⟩ := p
    rcases h with _ | ⟨_, _, v0', _, tl', hv, htl⟩
    by_cases hk : k0 = k
    · subst hk
      simp [lookupKey] at hl
      subst hl
      exact ⟨v0', by simp [lookupKey], hv⟩
    · simp only [lookupKey, if_neg hk] at hl
      obtain ⟨v', hl', hev⟩ := ih tl' k v htl hl
      exact ⟨v', by simp [lookupKey, hk, hl'], hev⟩

theorem evList_getIdx : ∀ (xs xs' : List Val) (i : Nat) (v : Val),
    EvList xs xs' → getIdx xs i = some v →
    ∃ v', getIdx xs' i = some v' ∧ Ev v v' := by
  intro xs
  induction xs with
  | nil => intro xs' i v _ hl; simp [getIdx] at hl
  | cons x tl ih =>
    intro xs' i v h hl
    rcases h with _ | ⟨_, v0', _, tl', hv, htl⟩
    cases i with
    | zero => simp [getIdx] at hl; subst hl; exact ⟨v0', by simp [getIdx], hv⟩
    | succ j =>
      simp only [getIdx] at hl
      obtain ⟨v', hl', hev⟩ := ih tl' j v htl hl
      exact ⟨v', by simpa [getIdx] using hl', hev⟩

theorem walkClean_ev : ∀ (segs : List String) (a c t : Val),
    Ev a c → walkClean a segs = some t → refFree t = true →
    resolveFragment c segs = some t := by
  intro segs
  induction segs with
  | nil =>
    intro a c t hev hw hf
    simp only [walkClean, Option.some_inj] at hw
    subst hw
    rw [ev_refFree_eq a c hev hf]
    simp [resolveFragment]
  | cons seg rest ih =>
    intro a c t hev hw hf
    cases href : isRefNode a with
    | true => simp [walkClean, href] at hw
    | false =>
      simp only [walkClean, href, Bool.false_eq_true, if_false] at hw
      cases a with
      | obj es =>
        simp only [Option.bind_eq_some] at hw
        obtain ⟨v, hv, hwv⟩ := hw
        rcases hev with _ | ⟨_, _, hr, hfw⟩ | ⟨_, es', hes⟩
        · simp only [resolveFragment, hv, Option.some_bind]
          exact ih v v t (Ev.refl v) hwv hf
        · rw [href] at hr; exact absurd hr (by simp)
        · obtain ⟨v', hv', hevv⟩ := evEntries_lookup es es' (unescapeSegment seg) v hes hv
          simp only [resolveFragment, hv', Option.some_bind]
          exact ih v v' t hevv hwv hf
      | arr xs =>
        simp only [Option.bind_eq_some] at hw
        obtain ⟨i, hi, v, hv, hwv⟩ := hw
        rcases hev with _ | ⟨_, _, hr, hfw⟩ | _ | ⟨_, xs', hxs⟩
        · simp only [resolveFragment, hi, Option.some_bind, hv]
          exact ih v v t (Ev.refl v) hwv hf
        · rw [href] at hr; exact absurd hr (by simp)
        · obtain ⟨v', hv', hevv⟩ := evList_getIdx xs xs' i v hxs hv
          simp only [resolveFragment, hi, Option.some_bind, hv', Option.some_bind]
          exact ih v v' t hevv hwv hf
      | str s => simp at hw
      | num n => simp at hw
      | bool b => simp at hw
      | null => simp at hw

theorem evEntries_setEntry_of : ∀ (r : List Step) (t n : Val)
    (H : ∀ (va vc : Val), Ev va vc → getPath vc r = some n → Ev va (setPath vc r t))
    (esa es : List (String × Val)), EvEntries esa es →
    ∀ (k : String) (v : Val), lookupKey es k = some v → getPath v r = some n →
    EvEntries esa (setEntry es k r t) := by
  intro r t n H esa
  induction esa with
  | nil =>
    intro es h k v hl hg
    cases h
    simp [lookupKey] at hl
  | cons pa tla ih =>
    intro es h k v hl hg
    obtain ⟨ka, va⟩ := pa
    rcases h with _ | ⟨_, _, v0', _, tl', hv, htl⟩
    by_cases hk : ka = k
    · subst hk
      simp [lookupKey] at hl
      subst hl
      simp only [setEntry, if_pos rfl]
      exact EvEntries.cons ka va (setPath v0' r t) tla tl' (H va v0' hv hg) htl
    · simp only [lookupKey, if_neg hk] at hl
      simp only [setEntry, if_neg hk]
      exact EvEntries.cons ka va v0' tla (setEntry tl' k r t) hv (ih tl' htl k v hl hg)

theorem evList_setItem_of : ∀ (r : List Step) (t n : Val)
    (H : ∀ (va vc : Val), Ev va vc → getPath vc r = some n → Ev va (setPath vc r t))
    (xsa xs : List Val), EvList xsa xs →
    ∀ (i : Nat) (v : Val), getIdx xs i = some v → getPath v r = some n →
    EvList xsa (setItem xs i r t) := by
  intro r t n H xsa
  induction xsa with
  | nil =>
    intro xs h i v hl hg
    cases h
    simp [getIdx] at hl
  | cons va tla ih =>
    intro xs h i v hl hg
    rcases h with _ | ⟨_, v0', _, tl', hv, htl⟩
    cases i with
    | zero =>
      simp [getIdx] at hl
      subst hl
      simp only [setItem]
      exact EvList.cons va (setPath v0' r t) tla tl' (H va v0' hv hg) htl
    | succ j =>
      simp only [getIdx] at hl
      simp only [setItem]
      exact EvList.cons va v0' tla (setItem tl' j r t) hv (ih tl' htl j v hl hg)

theorem ev_setPath_subst : ∀ (p : List Step) (a c n t : Val),
    Ev a c → getPath c p = some n → isRefNode n = true → refFree t = true →
    Ev a (setPath c p t) := by
  intro p
  induction p with
  | nil =>
    intro a c n t hev hg hrn hft
    simp only [getPath, Option.some_inj] at hg
    subst hg
    rw [setPath_nil]
    exact Ev.subst a t (ev_isRefNode a c hev hrn) hft
  | cons s rest ih =>
    intro a c n t hev hg hrn hft
    cases s with
    | key k =>
      cases c with
      | obj es =>
        simp only [getPath, Option.bind_eq_some] at hg
        obtain ⟨v, hv, hgrest⟩ := hg
        simp only [setPath]
        rcases hev with _ | ⟨_, _, hr, hfw⟩ | ⟨esa, _, hesa⟩
        · exact Ev.obj es (setEntry es k rest t)
            (evEntries_setEntry_of rest t n
              (fun va vc hevv hgv => ih va vc n t hevv hgv hrn hft)
              es es (evEntries_refl es) k v hv hgrest)
        · have hfn : refFree n = true := refFree_getPath (.key k :: rest) (.obj es) n hfw
            (by simp [getPath, hv, hgrest])
          rw [isRefNode_false_of_refFree n hfn] at hrn
          exact absurd hrn (by simp)
        · exact Ev.obj esa (setEntry es k rest t)
            (evEntries_setEntry_of rest t n
              (fun va vc hevv hgv => ih va vc n t hevv hgv hrn hft)
              esa es hesa k v hv hgrest)
      | str s0 => simp [getPath] at hg
      | num n0 => simp [getPath] at hg
      | bool b0 => simp [getPath] at hg
      | null => simp [getPath] at hg
      | arr xs => simp [getPath] at hg
    | idx i =>
      cases c with
      | arr xs =>
        simp only [getPath, Option.bind_eq_some] at hg
        obtain ⟨v, hv, hgrest⟩ := hg
        simp only [setPath]
        rcases hev with _ | ⟨_, _, hr, hfw⟩ | _ | ⟨xsa, _, hxsa⟩
        · exact Ev.arr xs (setItem xs i rest t)
            (evList_setItem_of rest t n
              (fun va vc hevv hgv => ih va vc n t hevv hgv hrn hft)
              xs xs (by
                clear hv hgrest
                induction xs with
                | nil => exact EvList.nil
                | cons x tl ihx => exact EvList.cons x x tl tl (Ev.refl x) ihx)
              i v hv hgrest)
        · have hfn : refFree n = true := refFree_getPath (.idx i :: rest) (.arr xs) n hfw
            (by simp [getPath, hv, hgrest])
          rw [isRefNode_false_of_refFree n hfn] at hrn
          exact absurd hrn (by simp)
        · exact Ev.arr xsa (setItem xs i rest t)
            (evList_setItem_of rest t n
              (fun va vc hevv hgv => ih va vc n t hevv hgv hrn hft)
              xsa xs hxsa i v hv hgrest)
      | str s0 => simp [getPath] at hg
      | num n0 => simp [getPath] at hg
      | bool b0 => simp [getPath] at hg
      | null => simp [getPath] at hg
      | obj es => simp [getPath] at hg

theorem subtrees_self : ∀ (v : Val), v ∈ subtrees v := by
  intro v
  cases v <;> simp [subtrees]

mutual

theorem subtrees_trans : ∀ (d n : Val), n ∈ subtrees d → ∀ x ∈ subtrees n, x ∈ subtrees d
  | .obj es, n, hm, x, hx => by
    simp only [subtrees, List.mem_cons] at hm ⊢
    rcases hm with h | h
    · subst h
      simp only [subtrees, List.mem_cons] at hx
      exact hx
    · exact Or.inr (subtreesEntries_trans es n h x hx)
  | .arr xs, n, hm, x, hx => by
    simp only [subtrees, List.mem_cons] at hm ⊢
    rcases hm with h | h
    · subst h
      simp only [subtrees, List.mem_cons] at hx
      exact hx
    · exact Or.inr (subtreesList_trans xs n h x hx)
  | .str s, n, hm, x, hx => by
    simp only [subtrees, List.mem_singleton] at hm
    subst hm
    exact hx
  | .num m, n, hm, x, hx => by
    simp only [subtrees, List.mem_singleton] at hm
    subst hm
    exact hx
  | .bool b, n, hm, x, hx => by
    simp only [subtrees, List.mem_singleton] at hm
    subst hm
    exact hx
  | .null, n, hm, x, hx => by
    simp only [subtrees, List.mem_singleton] at hm
    subst hm
    exact hx

theorem subtreesEntries_trans : ∀ (es : List (String × Val)) (n : Val),
    n ∈ subtreesEntries es → ∀ x ∈ subtrees n, x ∈ subtreesEntries es
  | [], n, hm, x, hx => by simp [subtreesEntries] at hm
  | (k, v) :: rest, n, hm, x, hx => by
    simp only [subtreesEntries, List.mem_append] at hm ⊢
    rcases hm with h | h
    · exact Or.inl (subtrees_trans v n h x hx)
    · exact Or.inr (subtreesEntries_trans rest n h x hx)

theorem subtreesList_trans : ∀ (xs : List Val) (n : Val),
    n ∈ subtreesList xs → ∀ x ∈ subtrees n, x ∈ subtreesList xs
  | [], n, hm, x, hx => by simp [subtreesList] at hm
  | v :: rest, n, hm, x, hx => by
    simp only [subtreesList, List.mem_append] at hm ⊢
    rcases hm with h | h
    · exact Or.inl (subtrees_trans v n h x hx)
    · exact Or.inr (subtreesList_trans rest n h x hx)

end

theorem mem_subtreesEntries_of_mem : ∀ (es : List (String × Val)) (k : String) (v : Val),
    (k, v) ∈ es → v ∈ subtreesEntries es := by
  intro es k v h
  induction es with
  | nil => simp at h
  | cons p rest ih =>
    rcases List.mem_cons.mp h with h1 | h1
    · subst h1
      simp only [subtreesEntries, List.mem_append]
      exact Or.inl (subtrees_self v)
    · obtain ⟨k0, v0⟩ := p
      simp only [subtreesEntries, List.mem_append]
      exact Or.inr (ih h1)

theorem mem_subtrees_child_obj : ∀ (es : List (String × Val)) (k : String) (v : Val),
    (k, v) ∈ es → v ∈ subtrees (.obj es) := by
  intro es k v h
  simp only [subtrees, List.mem_cons]
  exact Or.inr (mem_subtreesEntries_of_mem es k v h)

theorem mem_subtreesList_of_mem : ∀ (xs : List Val) (v : Val),
    v ∈ xs → v ∈ subtreesList xs := by
  intro xs v h
  induction xs with
  | nil => simp at h
  | cons x rest ih =>
    rcases List.mem_cons.mp h with h1 | h1
    · subst h1
      simp only [subtreesList, List.mem_append]
      exact Or.inl (subtrees_self v)
    · simp only [subtreesList, List.mem_append]
      exact Or.inr (ih h1)

theorem mem_subtrees_child_arr : ∀ (xs : List Val) (v : Val),
    v ∈ xs → v ∈ subtrees (.arr xs) := by
  intro xs v h
  simp only [subtrees, List.mem_cons]
  exact Or.inr (mem_subtreesList_of_mem xs v h)

theorem wfKeysEntries_mem : ∀ (es : List (String × Val)),
    wfKeysEntries es = true → ∀ p ∈ es, wfKeys p.2 = true := by
  intro es h p hp
  induction es with
  | nil => simp at hp
  | cons q rest ih =>
    obtain ⟨k0, v0⟩ := q
    simp only [wfKeysEntries, Bool.and_eq_true] at h
    rcases List.mem_cons.mp hp with h1 | h1
    · subst h1; exact h.1
    · exact ih h.2 h1

theorem wfKeysList_mem : ∀ (xs : List Val),
    wfKeysList xs = true → ∀ v ∈ xs, wfKeys v = true := by
  intro xs h v hv
  induction xs with
  | nil => simp at hv
  | cons x rest ih =>
    simp only [wfKeysList, Bool.and_eq_true] at h
    rcases List.mem_cons.mp hv with h1 | h1
    · subst h1; exact h.1
    · exact ih h.2 h1

theorem refsShallow_refOk : ∀ (d n : Val), refsShallow d = true → n ∈ subtrees d →
    refOk d n = true := by
  intro d n h hm
  simp only [refsShallow, List.all_eq_true] at h
  exact h n hm

theorem lookup_some_hasKey : ∀ (es : List (String × Val)) (k : String) (v : Val),
    lookupKey es k = some v → hasKey es k = true := by
  intro es k v h
  induction es with
  | nil => simp [lookupKey] at h
  | cons p rest ih =>
    obtain ⟨k0, v0⟩ := p
    by_cases hk : k0 = k
    · subst hk; simp [hasKey]
    · simp only [lookupKey, if_neg hk] at h
      simp [hasKey, hk, ih h]
      simpa [hasKey] using ih h

theorem refOk_unpack : ∀ (d : Val) (es : List (String × Val)) (u : String),
    refOk d (.obj es) = true → lookupKey es "$ref" = some (.str u) →
    ∃ segs t, parseFragment u = some segs ∧ walkClean d segs = some t ∧
      refFree t = true := by
  intro d es u h hl
  have hr : isRefNode (.obj es) = true := by
    simp [isRefNode, lookup_some_hasKey es _ _ hl]
  simp only [refOk, hr, if_pos, hl] at h
  simp only [pointerOk] at h
  cases hp : parseFragment u with
  | none => simp [hp] at h
  | some segs =>
    simp only [hp] at h
    cases hw : walkClean d segs with
    | none => simp [hw] at h
    | some t =>
      simp only [hw] at h
      exact ⟨segs, t, rfl, hw, h⟩

theorem resEntries_hasKey : ∀ (es es' : List (String × Val)) (k : String),
    ResEntries es es' → hasKey es' k = hasKey es k
  | _, _, _, .nil => rfl
  | _, _, k, .cons k0 v v' tl tl' _ htl => by
    have ih := resEntries_hasKey tl tl' k htl
    simp only [hasKey] at ih ⊢
    simp [List.any_cons, ih]

mutual

theorem res_refFree : ∀ (a b : Val), Res a b → refFree b = true
  | _, _, .subst _ w _ hf => hf
  | _, _, .obj es es' hk hes => by
    simp only [refFree, Bool.and_eq_true, Bool.not_eq_true']
    exact ⟨by rw [resEntries_hasKey es es' _ hes]; exact hk,
      resEntries_refFree es es' hes⟩
  | _, _, .arr xs xs' hxs => by
    simpa [refFree] using resList_refFree xs xs' hxs
  | _, _, .scalar v hs => by
    cases v with
    | obj es => simp [isScalar] at hs
    | arr xs => simp [isScalar] at hs
    | str s => simp [refFree]
    | num n => simp [refFree]
    | bool b => simp [refFree]
    | null => simp [refFree]

theorem resEntries_refFree : ∀ (es es' : List (String × Val)), ResEntries es es' →
    refFreeEntries es' = true
  | _, _, .nil => rfl
  | _, _, .cons k v v' tl tl' hv htl => by
    simp only [refFreeEntries, Bool.and_eq_true]
    exact ⟨res_refFree v v' hv, resEntries_refFree tl tl' htl⟩

theorem resList_refFree : ∀ (xs xs' : List Val), ResList xs xs' → refFreeList xs' = true
  | _, _, .nil => rfl
  | _, _, .cons v v' tl tl' hv htl => by
    simp only [refFreeList, Bool.and_eq_true]
    exact ⟨res_refFree v v' hv, resList_refFree tl tl' htl⟩

end

theorem hasKey_append : ∀ (a b : List (String × Val)) (k : String),
    hasKey (a ++ b) k = (hasKey a k || hasKey b k) := by
  intro a b k
  simp [hasKey, List.any_append]

theorem nodupKeys_mid : ∀ (l1 l2 : List (String × Val)) (k : String) (v w : Val),
    nodupKeys (l1 ++ (k, v) :: l2) = true →
    hasKey l1 k = false ∧ nodupKeys (l1 ++ (k, w) :: l2) = true := by
  intro l1
  induction l1 with
  | nil =>
    intro l2 k v w h
    simp only [List.nil_append, nodupKeys, Bool.and_eq_true, Bool.not_eq_true'] at h ⊢
    exact ⟨by simp [hasKey], h⟩
  | cons p rest ih =>
    intro l2 k v w h
    obtain ⟨k0, v0⟩ := p
    simp only [List.cons_append, nodupKeys, Bool.and_eq_true, Bool.not_eq_true',
      List.append_eq] at h ⊢
    obtain ⟨h1, h2⟩ := h
    obtain ⟨ih1, ih2⟩ := ih l2 k v w h2
    rw [hasKey_append] at h1
    simp only [Bool.or_eq_false_iff] at h1
    obtain ⟨h1a, h1b⟩ := h1
    have hk0 : (k == k0) = false := by
      simp only [hasKey, List.any_cons, Bool.or_eq_false_iff] at h1b
      simpa using h1b.1
    have hkk0 : k0 ≠ k := by
      intro hcon
      subst hcon
      simp at hk0
    constructor
    · simp only [hasKey, List.any_cons, Bool.or_eq_false_iff]
      constructor
      · simpa using hkk0
      · simpa [hasKey] using ih1
    · constructor
      · rw [hasKey_append]
        simp only [Bool.or_eq_false_iff]
        refine ⟨h1a, ?_⟩
        have hsame : hasKey ((k, w) :: l2) k0 = hasKey ((k, v) :: l2) k0 := by
          simp [hasKey]
        rw [hsame]
        exact h1b
      · exact ih2

theorem lookupKey_append_left_none : ∀ (l1 l2 : List (String × Val)) (k : String),
    hasKey l1 k = false → lookupKey (l1 ++ l2) k = lookupKey l2 k := by
  intro l1 l2 k h
  induction l1 with
  | nil => simp
  | cons p rest ih =>
    obtain ⟨k0, v0⟩ := p
    simp only [hasKey, List.any_cons, Bool.or_eq_false_iff] at h
    have hk : k0 ≠ k := by
      intro hcon
      subst hcon
      simp at h
    simp only [List.cons_append, lookupKey, if_neg hk]
    exact ih (by simpa [hasKey] using h.2)

theorem setEntry_append_mid : ∀ (l1 l2 : List (String × Val)) (k : String) (v : Val)
    (r : List Step) (w : Val), hasKey l1 k = false →
    setEntry (l1 ++ (k, v) :: l2) k r w = l1 ++ (k, setPath v r w) :: l2 := by
  intro l1 l2 k v r w h
  induction l1 with
  | nil => simp [setEntry]
  | cons p rest ih =>
    obtain ⟨k0, v0⟩ := p
    simp only [hasKey, List.any_cons, Bool.or_eq_false_iff] at h
    have hk : k0 ≠ k := by
      intro hcon
      subst hcon
      simp at h
    simp only [List.cons_append, setEntry, if_neg hk, List.append_eq]
    rw [ih (by simpa [hasKey] using h.2)]

theorem getIdx_append_len : ∀ (done : List Val) (v : Val) (rest : List Val),
    getIdx (done ++ v :: rest) done.length = some v := by
  intro done v rest
  induction done with
  | nil => simp [getIdx]
  | cons x t ih => simpa [getIdx] using ih

theorem setItem_append_len : ∀ (done : List Val) (v : Val) (rest : List Val)
    (r : List Step) (w : Val),
    setItem (done ++ v :: rest) done.length r w = done ++ (setPath v r w) :: rest := by
  intro done v rest r w
  induction done with
  | nil => simp [setItem]
  | cons x t ih => simpa [setItem] using ih

theorem getPath_child_key : ∀ (d : Val) (p : List Step) (es : List (String × Val))
    (k : String), getPath d p = some (.obj es) →
    getPath d (p ++ [.key k]) = lookupKey es k := by
  intro d p es k h
  rw [getPath_append, h]
  simp only [Option.some_bind, getPath]
  cases lookupKey es k <;> simp [getPath]

theorem getPath_child_idx : ∀ (d : Val) (p : List Step) (xs : List Val) (i : Nat),
    getPath d p = some (.arr xs) →
    getPath d (p ++ [.idx i]) = getIdx xs i := by
  intro d p xs i h
  rw [getPath_append, h]
  simp only [Option.some_bind, getPath]
  cases getIdx xs i <;> simp [getPath]

mutual

theorem do_resolve_sound : ∀ (n docI docC : Val) (path : List Step) (doc' : Val),
    refsShallow docI = true → wfKeys n = true → n ∈ subtrees docI → Ev docI docC →
    getPath docC path = some n → do_resolve docC path n = some doc' →
    ∃ m, Res n m ∧ doc' = setPath docC path m ∧ Ev docI doc'
  | .obj es, docI, docC, path, doc', hsh, hwf, hmem, hev, hget, hres => by
    cases hl : lookupKey es "$ref" with
    | some rv =>
      cases rv with
      | str u =>
        obtain ⟨segs, t, hp, hw, hft⟩ := refOk_unpack docI es u
          (refsShallow_refOk docI (.obj es) hsh hmem) hl
        have hru : resolveUri docC u = some t := by
          simp only [resolveUri, hp, Option.some_bind]
          exact walkClean_ev segs docI docC t hev hw hft
        simp only [do_resolve, hl, hru, Option.map_some', Option.some_inj] at hres
        subst hres
        have hrn : isRefNode (.obj es) = true := by
          simp [isRefNode, lookup_some_hasKey es _ _ hl]
        exact ⟨t, Res.subst _ t hrn hft, rfl,
          ev_setPath_subst path docI docC (.obj es) t hev hget hrn hft⟩
      | num m0 => simp [do_resolve, hl] at hres
      | bool b0 => simp [do_resolve, hl] at hres
      | null => simp [do_resolve, hl] at hres
      | arr xs0 => simp [do_resolve, hl] at hres
      | obj es0 => simp [do_resolve, hl] at hres
    | none =>
      simp only [do_resolve, hl] at hres
      have hwf' : nodupKeys es = true ∧ wfKeysEntries es = true := by
        simp only [wfKeys, Bool.and_eq_true] at hwf
        exact hwf
      have hch : ∀ p ∈ es, wfKeys p.2 = true ∧ p.2 ∈ subtrees docI := by
        intro p hp
        refine ⟨wfKeysEntries_mem es hwf'.2 p hp, ?_⟩
        exact subtrees_trans docI (.obj es) hmem p.2
          (mem_subtrees_child_obj es p.1 p.2 (by simpa using hp))
      obtain ⟨es2, hres2, hdoc, hev'⟩ := do_resolveEntries_sound es docI docC path [] doc'
        hsh hch (by simpa using hwf'.1) hev (by simpa using hget) hres
      refine ⟨.obj es2, Res.obj es es2 (lookup_none_hasKey es _ hl) hres2, ?_, hev'⟩
      simpa using hdoc
  | .arr xs, docI, docC, path, doc', hsh, hwf, hmem, hev, hget, hres => by
    simp only [do_resolve] at hres
    have hwf' : wfKeysList xs = true := by
      simpa [wfKeys] using hwf
    have hch : ∀ v ∈ xs, wfKeys v = true ∧ v ∈ subtrees docI := by
      intro v hv
      refine ⟨wfKeysList_mem xs hwf' v hv, ?_⟩
      exact subtrees_trans docI (.arr xs) hmem v (mem_subtrees_child_arr xs v hv)
    obtain ⟨xs2, hres2, hdoc, hev'⟩ := do_resolveItems_sound xs docI docC path [] doc'
      hsh hch hev (by simpa using hget) (by simpa using hres)
    refine ⟨.arr xs2, Res.arr xs xs2 hres2, ?_, hev'⟩
    simpa using hdoc
  | .str s, docI, docC, path, doc', hsh, hwf, hmem, hev, hget, hres => by
    simp only [do_resolve, Option.some_inj] at hres
    subst hres
    exact ⟨.str s, Res.scalar _ rfl, (setPath_id path docC _ hget).symm, hev⟩
  | .num m0, docI, docC, path, doc', hsh, hwf, hmem, hev, hget, hres => by
    simp only [do_resolve, Option.some_inj] at hres
    subst hres
    exact ⟨.num m0, Res.scalar _ rfl, (setPath_id path docC _ hget).symm, hev⟩
  | .bool b0, docI, docC, path, doc', hsh, hwf, hmem, hev, hget, hres => by
    simp only [do_resolve, Option.some_inj] at hres
    subst hres
    exact ⟨.bool b0, Res.scalar _ rfl, (setPath_id path docC _ hget).symm, hev⟩
  | .null, docI, docC, path, doc', hsh, hwf, hmem, hev, hget, hres => by
    simp only [do_resolve, Option.some_inj] at hres
    subst hres
    exact ⟨.null, Res.scalar _ rfl, (setPath_id path docC _ hget).symm, hev⟩

theorem do_resolveEntries_sound : ∀ (es : List (String × Val)) (docI docC : Val)
    (path : List Step) (done : List (String × Val)) (doc' : Val),
    refsShallow docI = true →
    (∀ p ∈ es, wfKeys p.2 = true ∧ p.2 ∈ subtrees docI) →
    nodupKeys (done ++ es) = true →
    Ev docI docC →
    getPath docC path = some (.obj (done ++ es)) →
    do_resolveEntries docC path es = some doc' →
    ∃ es2, ResEntries es es2 ∧ doc' = setPath docC path (.obj (done ++ es2)) ∧
      Ev docI doc'
  | [], docI, docC, path, done, doc', hsh, hch, hnd, hev, hget, hres => by
    simp only [do_resolveEntries, Option.some_inj] at hres
    subst hres
    exact ⟨[], ResEntries.nil, (setPath_id path docC _ hget).symm, hev⟩
  | (k, v) :: rest, docI, docC, path, done, doc', hsh, hch, hnd, hev, hget, hres => by
    simp only [do_resolveEntries, Option.bind_eq_some] at hres
    obtain ⟨doc1, hd1, hrest⟩ := hres
    obtain ⟨hdk, _⟩ := nodupKeys_mid done rest k v v hnd
    have hlk : lookupKey (done ++ (k, v) :: rest) k = some v := by
      rw [lookupKey_append_left_none done _ k hdk]
      simp [lookupKey]
    have hgchild : getPath docC (path ++ [.key k]) = some v := by
      rw [getPath_child_key docC path _ k hget, hlk]
    obtain ⟨hwfv, hmemv⟩ := hch (k, v) (List.mem_cons_self _ _)
    obtain ⟨m, hresm, hdoc1, hev1⟩ := do_resolve_sound v docI docC (path ++ [.key k]) doc1
      hsh hwfv hmemv hev hgchild hd1
    have hdoc1' : doc1 = setPath docC path (.obj (done ++ (k, m) :: rest)) := by
      rw [hdoc1, setPath_snoc_key path docC _ k m hget]
      simp only [updateKey]
      rw [setEntry_append_mid done rest k v [] m hdk, setPath_nil]
    have hget1 : getPath doc1 path = some (.obj (done ++ (k, m) :: rest)) := by
      rw [hdoc1']
      exact getPath_setPath_self path docC _ _ hget
    obtain ⟨_, hndm⟩ := nodupKeys_mid done rest k v m hnd
    obtain ⟨es2, hres2, hdoc', hev'⟩ := do_resolveEntries_sound rest docI doc1 path
      (done ++ [(k, m)]) doc' hsh
      (fun p hp => hch p (List.mem_cons_of_mem _ hp))
      (by simpa using hndm)
      hev1
      (by simpa using hget1)
      hrest
    refine ⟨(k, m) :: es2, ResEntries.cons k v m rest es2 hresm hres2, ?_, hev'⟩
    rw [hdoc', hdoc1', setPath_setPath]
    simp

theorem do_resolveItems_sound : ∀ (xs : List Val) (docI docC : Val)
    (path : List Step) (done : List Val) (doc' : Val),
    refsShallow docI = true →
    (∀ v ∈ xs, wfKeys v = true ∧ v ∈ subtrees docI) →
    Ev docI docC →
    getPath docC path = some (.arr (done ++ xs)) →
    do_resolveItems docC path done.length xs = some doc' →
    ∃ xs2, ResList xs xs2 ∧ doc' = setPath docC path (.arr (done ++ xs2)) ∧
      Ev docI doc'
  | [], docI, docC, path, done, doc', hsh, hch, hev, hget, hres => by
    simp only [do_resolveItems, Option.some_inj] at hres
    subst hres
    exact ⟨[], ResList.nil, (setPath_id path docC _ hget).symm, hev⟩
  | v :: rest, docI, docC, path, done, doc', hsh, hch, hev, hget, hres => by
    simp only [do_resolveItems, Option.bind_eq_some] at hres
    obtain ⟨doc1, hd1, hrest⟩ := hres
    have hgchild : getPath docC (path ++ [.idx done.length]) = some v := by
      rw [getPath_child_idx docC path _ done.length hget, getIdx_append_len]
    obtain ⟨hwfv, hmemv⟩ := hch v (List.mem_cons_self _ _)
    obtain ⟨m, hresm, hdoc1, hev1⟩ := do_resolve_sound v docI docC
      (path ++ [.idx done.length]) doc1 hsh hwfv hmemv hev hgchild hd1
    have hdoc1' : doc1 = setPath docC path (.arr (done ++ m :: rest)) := by
      rw [hdoc1, setPath_snoc_idx path docC _ done.length m hget]
      rw [setItem_append_len done v rest [] m, setPath_nil]
    have hget1 : getPath doc1 path = some (.arr (done ++ m :: rest)) := by
      rw [hdoc1']
      exact getPath_setPath_self path docC _ _ hget
    obtain ⟨xs2, hres2, hdoc', hev'⟩ := do_resolveItems_sound rest docI doc1 path
      (done ++ [m]) doc' hsh
      (fun p hp => hch p (List.mem_cons_of_mem _ hp))
      hev1
      (by simpa using hget1)
      (by simpa using hrest)
    refine ⟨m :: xs2, ResList.cons v m rest xs2 hresm hres2, ?_, hev'⟩
    rw [hdoc', hdoc1', setPath_setPath]
    simp

end

/-- C1 (amended): for every document tree with unique mapping keys in
which every reference is an in-document fragment pointer whose path
passes only through non-Reference nodes and whose target contains no
Reference Node anywhere (depth-one references, a condition implying
acyclicity of the reference graph), after resolve completes no node
anywhere in the returned tree is a Reference Node.  Acyclicity alone
is not sufficient: see the counterexample. -/
theorem resolve_refs_shallow_complete : ∀ (uri : String) (spec doc' : Val),
    wfKeys spec = true → refsShallow spec = true →
    resolve_refs uri spec = some doc' → refFree doc' = true := by
  intro uri spec doc' hwf hsh hres
  simp only [resolve_refs] at hres
  obtain ⟨m, hresm, hdoc, _⟩ := do_resolve_sound spec spec spec [] doc' hsh hwf
    (subtrees_self spec) (Ev.refl spec) (by simp [getPath]) hres
  rw [hdoc, setPath_nil]
  exact res_refFree spec m hresm

/-- Witness for the amended C1 on shallowDoc. -/
theorem resolve_refs_shallow_complete_witness :
    wfKeys shallowDoc = true ∧ refsShallow shallowDoc = true ∧
    resolve_refs "" shallowDoc = some (.obj [("a", .num 5), ("b", .num 5)]) ∧
    refFree (.obj [("a", .num 5), ("b", .num 5)]) = true :=
  ⟨rfl, rfl, rfl,
    resolve_refs_shallow_complete "" shallowDoc (.obj [("a", .num 5), ("b", .num 5)])
      rfl rfl rfl⟩
